import Mathlib

/-!
# merkledb write batch (database/merkledb/batcher.go)

A shallow embedding of the `Batch` type of `database/merkledb/batcher.go` and of
its methods, with the properties of the write path, the replay path and the
buffer bookkeeping.

Modelling conventions:

* A Go `[]byte` is `ByteSlice`: `none` is the `nil` slice, `some l` a non-nil
  slice with contents `l`. Slices are treated as values (no aliasing of the
  backing array).
* A Go `error` result is `Option ε`: `none` is `nil`.
* The `Tree` type, its `put`/`del` methods and the `persistence` object are not
  part of `batcher.go`; they are parameters. `σ` is the whole mutable state
  reachable from the tree (trie nodes and persistence backend), and each
  operation maps a state to a new state and an error result.
* Every call that `Batch` issues on the tree or on the backend is recorded, in
  order, in `World.calls`; every call issued on a replay target is recorded
  in `Sink.calls`.
* In `Batch.Replay` and in the `Replay` step of `Sys.step` the replay target
  is an object of its own: its state `ω` is separate from the batch and from
  the tree. `Sys.ReplayShared` is `Replay` for any writer, the batch itself
  included: there the calls of the writer act on a `Heap` that holds the
  buffer, the tree and backend and the state of the writer.
* For the root hash, the trie itself (nodes, `put`, `delete`, hashing) is
  modelled from the spec in the section on the trie and plugged in as a
  `Tree` by `trieTree`; everything about `Batch` holds for every `Tree`.
-/

namespace merkledb

/-- One byte. -/
abbrev Byte := Fin 256

/-- A Go byte slice; `none` is the `nil` slice. -/
abbrev ByteSlice := Option (List Byte)

/-- The `batchValue` struct: one buffered write intent. -/
structure batchValue where
  key : ByteSlice
  value : ByteSlice
  delete : Bool
  deriving DecidableEq, Repr

/-- The persistence object held by a tree: `Commit(nil)` on the state `σ`. -/
structure Persistence (σ ε : Type) where
  Commit : σ → σ × Option ε

/-- The tree a batch is bound to: its two mutating methods and its
persistence object. -/
structure Tree (σ ε : Type) where
  put : σ → ByteSlice → ByteSlice → σ × Option ε
  del : σ → ByteSlice → σ × Option ε
  persistence : Persistence σ ε

/-- A call issued on the tree or on its persistence backend. -/
inductive TreeCall where
  | put (key value : ByteSlice)
  | del (key : ByteSlice)
  | commit
  deriving DecidableEq, Repr

/-- The tree and backend state together with the log of calls issued on them. -/
structure World (σ : Type) where
  state : σ
  calls : List TreeCall
  deriving DecidableEq

/-- The call `t.put(key, value)` made in world `w`. -/
def Tree.callPut {σ ε : Type} (t : Tree σ ε) (w : World σ) (key value : ByteSlice) :
    World σ × Option ε :=
  let r := t.put w.state key value
  ({ state := r.1, calls := w.calls ++ [TreeCall.put key value] }, r.2)

/-- The call `t.del(key)` made in world `w`. -/
def Tree.callDel {σ ε : Type} (t : Tree σ ε) (w : World σ) (key : ByteSlice) :
    World σ × Option ε :=
  let r := t.del w.state key
  ({ state := r.1, calls := w.calls ++ [TreeCall.del key] }, r.2)

/-- The call `t.persistence.Commit(nil)` made in world `w`. -/
def Tree.callCommit {σ ε : Type} (t : Tree σ ε) (w : World σ) : World σ × Option ε :=
  let r := t.persistence.Commit w.state
  ({ state := r.1, calls := w.calls ++ [TreeCall.commit] }, r.2)

/-- The `database.KeyValueWriter` interface: the target of `Replay`. -/
structure KeyValueWriter (ω ε : Type) where
  Put : ω → ByteSlice → ByteSlice → ω × Option ε
  Delete : ω → ByteSlice → ω × Option ε

/-- A call received by a replay target. -/
inductive WriterCall where
  | Put (key value : ByteSlice)
  | Delete (key : ByteSlice)
  deriving DecidableEq, Repr

/-- The state of the replay target together with the log of calls it received. -/
structure Sink (ω : Type) where
  state : ω
  calls : List WriterCall
  deriving DecidableEq

/-- The call `w.Put(key, value)` on the replay target. -/
def KeyValueWriter.callPut {ω ε : Type} (wr : KeyValueWriter ω ε) (s : Sink ω)
    (key value : ByteSlice) : Sink ω × Option ε :=
  let r := wr.Put s.state key value
  ({ state := r.1, calls := s.calls ++ [WriterCall.Put key value] }, r.2)

/-- The call `w.Delete(key)` on the replay target. -/
def KeyValueWriter.callDelete {ω ε : Type} (wr : KeyValueWriter ω ε) (s : Sink ω)
    (key : ByteSlice) : Sink ω × Option ε :=
  let r := wr.Delete s.state key
  ({ state := r.1, calls := s.calls ++ [WriterCall.Delete key] }, r.2)

/-- The `Batch` struct: the buffered entries and the bound tree. A `nil`
`data` slice and an empty one are both the empty list (the code only takes
`len`, `range` and `append` of it). -/
structure Batch (σ ε : Type) where
  data : List batchValue
  tree : Tree σ ε

/-- `NewBatch(t)`. -/
def NewBatch {σ ε : Type} (t : Tree σ ε) : Batch σ ε :=
  { data := [], tree := t }

/-- `ValueSize`: `len(b.data)`. -/
def Batch.ValueSize {σ ε : Type} (b : Batch σ ε) : Nat :=
  b.data.length

/-- The `for _, d := range b.data` loop of `Write` over the remaining
entries: `some err` is the early `return err`, `none` means the loop ran to
its end. -/
def Batch.writeLoop {σ ε : Type} (t : Tree σ ε) :
    List batchValue → World σ → World σ × Option ε
  | [], w => (w, none)
  | d :: ds, w =>
    let r := if d.delete then t.callDel w d.key else t.callPut w d.key d.value
    match r.2 with
    | some err => (r.1, some err)
    | none => Batch.writeLoop t ds r.1

/-- `Write`: run the loop, return its error if any, otherwise return the
result of `b.tree.persistence.Commit(nil)`. The batch after the call is the
first component. -/
def Batch.Write {σ ε : Type} (b : Batch σ ε) (w : World σ) :
    Batch σ ε × World σ × Option ε :=
  let r := Batch.writeLoop b.tree b.data w
  match r.2 with
  | some err => (b, r.1, some err)
  | none => (b, b.tree.callCommit r.1)

/-- `Reset`: `b.data = nil`. -/
def Batch.Reset {σ ε : Type} (b : Batch σ ε) : Batch σ ε :=
  { b with data := [] }

/-- The `for _, val := range b.data` loop of `Replay` over the remaining
entries. -/
def Batch.replayLoop {ω ε : Type} (wr : KeyValueWriter ω ε) :
    List batchValue → Sink ω → Sink ω × Option ε
  | [], s => (s, none)
  | val :: rest, s =>
    if val.delete then
      let r := wr.callDelete s val.key
      match r.2 with
      | some err => (r.1, some err)
      | none => Batch.replayLoop wr rest r.1
    else
      let r := wr.callPut s val.key val.value
      match r.2 with
      | some err => (r.1, some err)
      | none => Batch.replayLoop wr rest r.1

/-- `Replay(w)`: the loop, then `return nil`, for a writer `w` that is an
object of its own (its calls reach its own state only); `Sys.ReplayShared` is
the same method for a writer that can reach the batch. -/
def Batch.Replay {σ ε ω : Type} (b : Batch σ ε) (wr : KeyValueWriter ω ε) (s : Sink ω) :
    Batch σ ε × Sink ω × Option ε :=
  (b, Batch.replayLoop wr b.data s)

/-- `Put(key, value)`: append the entry, return `nil`. -/
def Batch.Put {σ ε : Type} (b : Batch σ ε) (key value : ByteSlice) :
    Batch σ ε × Option ε :=
  ({ b with data := b.data ++ [{ key := key, value := value, delete := false }] }, none)

/-- `Delete(key)`: append the delete entry with a `nil` value, return `nil`. -/
def Batch.Delete {σ ε : Type} (b : Batch σ ε) (key : ByteSlice) :
    Batch σ ε × Option ε :=
  ({ b with data := b.data ++ [{ key := key, value := none, delete := true }] }, none)

/-- `Inner`: `return b`. -/
def Batch.Inner {σ ε : Type} (b : Batch σ ε) : Batch σ ε :=
  b

/-! ## Method calls on one batch, as a step function -/

/-- The objects a caller of the batch sees: the batch, the tree and backend it
is bound to, and the replay target. -/
structure Sys (σ ε ω : Type) where
  batch : Batch σ ε
  world : World σ
  sink : Sink ω

/-- A method call on the batch. -/
inductive Op (ω ε : Type) where
  | Put (key value : ByteSlice)
  | Delete (key : ByteSlice)
  | Reset
  | Write
  | Replay (wr : KeyValueWriter ω ε)
  | ValueSize
  | Inner

/-- What a method call returns. -/
inductive Ret (σ ε : Type) where
  | error (e : Option ε)
  | int (n : Nat)
  | batch (b : Batch σ ε)
  | unit

/-- One method call: the objects after it and the value it returns. -/
def Sys.step {σ ε ω : Type} (s : Sys σ ε ω) : Op ω ε → Sys σ ε ω × Ret σ ε
  | Op.Put key value =>
    let r := s.batch.Put key value
    ({ s with batch := r.1 }, Ret.error r.2)
  | Op.Delete key =>
    let r := s.batch.Delete key
    ({ s with batch := r.1 }, Ret.error r.2)
  | Op.Reset => ({ s with batch := s.batch.Reset }, Ret.unit)
  | Op.Write =>
    let r := s.batch.Write s.world
    ({ s with batch := r.1, world := r.2.1 }, Ret.error r.2.2)
  | Op.Replay wr =>
    let r := s.batch.Replay wr s.sink
    ({ s with batch := r.1, sink := r.2.1 }, Ret.error r.2.2)
  | Op.ValueSize => (s, Ret.int s.batch.ValueSize)
  | Op.Inner => (s, Ret.batch s.batch.Inner)

/-- A sequence of method calls, first call first. -/
def Sys.run {σ ε ω : Type} (s : Sys σ ε ω) (ops : List (Op ω ε)) : Sys σ ε ω :=
  ops.foldl (fun acc o => (acc.step o).1) s

/-- The objects right after `NewBatch(t)`. -/
def Sys.fresh {σ ε ω : Type} (t : Tree σ ε) (w : World σ) (k : Sink ω) : Sys σ ε ω :=
  { batch := NewBatch t, world := w, sink := k }

/-! ## Reference notions: the operations applied directly -/

/-- The tree call a buffered entry stands for. -/
def batchValue.treeCall (d : batchValue) : TreeCall :=
  if d.delete then TreeCall.del d.key else TreeCall.put d.key d.value

/-- The writer call a buffered entry stands for. -/
def batchValue.writerCall (d : batchValue) : WriterCall :=
  if d.delete then WriterCall.Delete d.key else WriterCall.Put d.key d.value

/-- The operation of entry `d` applied directly to the tree: `del(key)` for a
delete entry, `put(key, value)` otherwise. -/
def Tree.apply {σ ε : Type} (t : Tree σ ε) (s : σ) (d : batchValue) : σ × Option ε :=
  if d.delete then t.del s d.key else t.put s d.key d.value

/-- The state reached by applying the entries directly, left to right. -/
def Tree.applyAll {σ ε : Type} (t : Tree σ ε) (s : σ) (ds : List batchValue) : σ :=
  ds.foldl (fun acc d => (t.apply acc d).1) s

/-- The error result of the operation of entry `i` when entries `0..i-1` have
been applied directly before it (`none` also when there is no entry `i`). -/
def Tree.errAt {σ ε : Type} (t : Tree σ ε) (s : σ) (ds : List batchValue) (i : Nat) :
    Option ε :=
  match ds[i]? with
  | some d => (t.apply (t.applyAll s (ds.take i)) d).2
  | none => none

/-- The entry sent directly to a writer. -/
def KeyValueWriter.apply {ω ε : Type} (wr : KeyValueWriter ω ε) (s : ω) (d : batchValue) :
    ω × Option ε :=
  if d.delete then wr.Delete s d.key else wr.Put s d.key d.value

/-- The writer state reached by sending the entries directly, left to right. -/
def KeyValueWriter.applyAll {ω ε : Type} (wr : KeyValueWriter ω ε) (s : ω)
    (ds : List batchValue) : ω :=
  ds.foldl (fun acc d => (wr.apply acc d).1) s

/-- The error result of the writer call of entry `i` when entries `0..i-1`
have been sent before it (`none` also when there is no entry `i`). -/
def KeyValueWriter.errAt {ω ε : Type} (wr : KeyValueWriter ω ε) (s : ω)
    (ds : List batchValue) (i : Nat) : Option ε :=
  match ds[i]? with
  | some d => (wr.apply (wr.applyAll s (ds.take i)) d).2
  | none => none

/-! ## A concrete tree, backend and writer -/

/-- Modelled from the spec: the state of a key-value trie over a committing
backend (the `Tree` and persistence code is not part of `batcher.go`). `mem`
is the key-value set held by the trie, `durable` the key-value set made
durable by the last successful `Commit`. -/
structure KV where
  mem : List (List Byte × List Byte)
  durable : List (List Byte × List Byte)
  deriving DecidableEq

/-- Modelled from the spec: `put` of the trie. An empty key is a malformed key
(error `1`, state untouched); otherwise the value at the key is inserted or
overwritten. -/
def KV.put (s : KV) (key value : ByteSlice) : KV × Option Nat :=
  match key.getD [] with
  | [] => (s, some 1)
  | k => ({ s with mem := (s.mem.filter (fun p => p.1 ≠ k)) ++ [(k, value.getD [])] }, none)

/-- Modelled from the spec: `delete` of the trie. An empty key is a malformed
key; deleting an absent key is a no-op. -/
def KV.del (s : KV) (key : ByteSlice) : KV × Option Nat :=
  match key.getD [] with
  | [] => (s, some 1)
  | k => ({ s with mem := s.mem.filter (fun p => p.1 ≠ k) }, none)

/-- Modelled from the spec: `Commit` of the backend makes every mutation
issued since the last commit durable. -/
def KV.commit (s : KV) : KV × Option Nat :=
  ({ s with durable := s.mem }, none)

/-- Modelled from the spec: the trie bound to its backend. -/
def KV.tree : Tree KV Nat :=
  { put := KV.put, del := KV.del, persistence := { Commit := KV.commit } }

/-- A writer that appends what it receives to a list and refuses an empty
key with error `2`. -/
def listWriter : KeyValueWriter (List (List Byte × Option (List Byte))) Nat :=
  { Put := fun s key value =>
      match key.getD [] with
      | [] => (s, some 2)
      | k => (s ++ [(k, some (value.getD []))], none)
    Delete := fun s key =>
      match key.getD [] with
      | [] => (s, some 2)
      | k => (s ++ [(k, none)], none) }

/-- A writer that accepts every call. -/
def nullWriter : KeyValueWriter Unit Nat :=
  { Put := fun s _ _ => (s, none), Delete := fun s _ => (s, none) }

/-- Whether every entry succeeds when the entries are applied directly, left
to right. -/
def Tree.allOk {σ ε : Type} (t : Tree σ ε) : σ → List batchValue → Bool
  | _, [] => true
  | s, d :: ds => (t.apply s d).2.isNone && Tree.allOk t (t.apply s d).1 ds

/-- A mutating call a client makes: `Put(key, value)` or `Delete(key)`. -/
inductive Mutation where
  | Put (key value : ByteSlice)
  | Delete (key : ByteSlice)
  deriving DecidableEq, Repr

/-- The call made on a batch. -/
def Mutation.op {ω ε : Type} : Mutation → Op ω ε
  | Mutation.Put key value => Op.Put key value
  | Mutation.Delete key => Op.Delete key

/-- The same call made directly on the tree: `put(key, value)` for a `Put`,
`del(key)` for a `Delete`. -/
def Mutation.direct {σ ε : Type} (t : Tree σ ε) (s : σ) : Mutation → σ × Option ε
  | Mutation.Put key value => t.put s key value
  | Mutation.Delete key => t.del s key

/-- The tree call a mutation is. -/
def Mutation.call : Mutation → TreeCall
  | Mutation.Put key value => TreeCall.put key value
  | Mutation.Delete key => TreeCall.del key

/-- The mutations applied directly to the tree in order: a left fold. -/
def Mutation.directAll {σ ε : Type} (t : Tree σ ε) (s : σ) (ms : List Mutation) : σ :=
  ms.foldl (fun acc m => (m.direct t acc).1) s

/-- Whether none of the mutations fails when they are applied directly to the
tree in order. -/
def Mutation.directOk {σ ε : Type} (t : Tree σ ε) : σ → List Mutation → Bool
  | _, [] => true
  | s, m :: ms => (m.direct t s).2.isNone && Mutation.directOk t (m.direct t s).1 ms

/-- The buffer entry that the batch call of a mutation appends. -/
def Mutation.entry : Mutation → batchValue
  | Mutation.Put key value => { key := key, value := value, delete := false }
  | Mutation.Delete key => { key := key, value := none, delete := true }

/-- The writer call a mutation is: `Put(key, value)` or `Delete(key)`. -/
def Mutation.writerCall : Mutation → WriterCall
  | Mutation.Put key value => WriterCall.Put key value
  | Mutation.Delete key => WriterCall.Delete key

/-- Whether a method call is a `Reset`. -/
def Op.isReset {ω ε : Type} : Op ω ε → Bool
  | Op.Reset => true
  | _ => false

/-- Whether a method call is a `Put` or a `Delete`. -/
def Op.isPutOrDelete {ω ε : Type} : Op ω ε → Bool
  | Op.Put _ _ => true
  | Op.Delete _ => true
  | _ => false

/-- The number of `Put` and `Delete` calls in `ops` (first call first) made
after the most recent `Reset`, or since the start when there is no `Reset`. -/
def putDeleteSinceReset {ω ε : Type} (ops : List (Op ω ε)) : Nat :=
  (ops.reverse.takeWhile (fun o => !o.isReset)).countP Op.isPutOrDelete

/-! ## Concrete inputs -/

/-- An empty trie over an empty backend, no call made yet. -/
def emptyWorld : World KV :=
  { state := { mem := [], durable := [] }, calls := [] }

/-- A replay target that has received nothing. -/
def emptySink : Sink (List (List Byte × Option (List Byte))) :=
  { state := [], calls := [] }

/-- A sequence of calls with repeated keys and a `Reset` in the middle. -/
def mixedOps : List (Op (List (List Byte × Option (List Byte))) Nat) :=
  [Op.Put (some [1]) (some [10]), Op.Write, Op.Reset, Op.Put (some [1]) (some [10]),
   Op.Put (some [1]) (some [11]), Op.Replay listWriter, Op.Delete (some [1]), Op.ValueSize,
   Op.Inner, Op.Write]

/-- The replay target of `nullWriter`, nothing received yet. -/
def unitSink : Sink Unit :=
  { state := (), calls := [] }

/-- A batch of three entries whose second entry has a malformed key. -/
def badBatch : Batch KV Nat :=
  { data := [{ key := some [1], value := some [10], delete := false },
             { key := some [], value := some [7], delete := false },
             { key := some [2], value := none, delete := true }],
    tree := KV.tree }

/-- A batch of three well-formed entries. -/
def goodBatch : Batch KV Nat :=
  { data := [{ key := some [1], value := some [10], delete := false },
             { key := some [2], value := some [20], delete := false },
             { key := some [1], value := none, delete := true }],
    tree := KV.tree }

/-- Three well-formed mutations. -/
def goodMutations : List Mutation :=
  [Mutation.Put (some [1]) (some [10]), Mutation.Put (some [2]) (some [20]),
   Mutation.Delete (some [1])]

/-- A batch with two buffered entries bound to a fresh trie, with the replay
target `nullWriter`. -/
def goodSys : Sys KV Nat Unit :=
  { batch := { data := [{ key := some [3], value := some [30], delete := false },
                        { key := some [4], value := none, delete := true }],
               tree := KV.tree },
    world := emptyWorld, sink := unitSink }

/-- The objects after `Put([1],[10])`, `Put([],[7])` and a `Write` on a fresh
batch: the second `put` fails, so the first mutation is in the trie and no
`Commit` was issued. -/
def stuckSys : Sys KV Nat Unit :=
  (Sys.fresh KV.tree emptyWorld unitSink).run
    [Op.Put (some [1]) (some [10]), Op.Put (some []) (some [7]), Op.Write]

/-! ## `Replay` into a writer that can reach the batch -/

/-- What the calls of a replay target can reach: the buffer of the batch, the
tree and backend, and the state of the target itself. The target can be the
batch itself or an object that holds the batch or the tree. -/
structure Heap (σ ω : Type) where
  data : List batchValue
  world : World σ
  own : ω

/-- What a replay target can reach in a system state. -/
def Sys.heap {σ ε ω : Type} (s : Sys σ ε ω) : Heap σ ω :=
  { data := s.batch.data, world := s.world, own := s.sink.state }

/-- `Replay(w)` for any writer `w`, the batch itself included: the calls of
the writer act on the heap. `range b.data` is evaluated once, so the loop
runs over the entries buffered when `Replay` is called, whatever the writer
does to the buffer meanwhile; `Replay` itself assigns nothing. -/
def Sys.ReplayShared {σ ε ω : Type} (s : Sys σ ε ω) (wr : KeyValueWriter (Heap σ ω) ε) :
    Sys σ ε ω × Option ε :=
  let r := Batch.replayLoop wr s.batch.data { state := s.heap, calls := s.sink.calls }
  ({ batch := { s.batch with data := r.1.state.data }, world := r.1.state.world,
     sink := { state := r.1.state.own, calls := r.1.calls } }, r.2)

/-- The batch itself as the writer: its `Put` and `Delete` on its buffer. -/
def Batch.asWriter {σ ε ω : Type} (b : Batch σ ε) : KeyValueWriter (Heap σ ω) ε :=
  { Put := fun h key value =>
      ({ h with data := (Batch.Put { b with data := h.data } key value).1.data },
       (Batch.Put { b with data := h.data } key value).2)
    Delete := fun h key =>
      ({ h with data := (Batch.Delete { b with data := h.data } key).1.data },
       (Batch.Delete { b with data := h.data } key).2) }

/-- A writer that is an object of its own, as a writer on the heap: its calls
reach its own state only. -/
def KeyValueWriter.onHeap {σ ω ε : Type} (wr : KeyValueWriter ω ε) :
    KeyValueWriter (Heap σ ω) ε :=
  { Put := fun h key value =>
      ({ h with own := (wr.Put h.own key value).1 }, (wr.Put h.own key value).2)
    Delete := fun h key =>
      ({ h with own := (wr.Delete h.own key).1 }, (wr.Delete h.own key).2) }

/-! ## The trie -/

/-- Modelled from the spec: the children of a trie node, in ascending order of
the first path unit of their path segments; each child is given by the
fields of a `Node` (its path segment, its optional value and its own
children), followed by its later siblings. The trie code is not part of
`batcher.go`. The cached hash and the dirty flag of a node only save
recomputation and are left out. -/
inductive Children where
  | nil
  | cons (pathSegment : List Byte) (value : Option (List Byte)) (children : Children)
      (rest : Children)
  deriving DecidableEq, Repr

/-- Modelled from the spec: a trie vertex: the portion of the key consumed
between its parent and itself, its optional value and its children. -/
structure Node where
  pathSegment : List Byte
  value : Option (List Byte)
  children : Children
  deriving DecidableEq, Repr

/-- Modelled from the spec: the trie owns its root node; the empty trie has
none. -/
structure Trie where
  root : Option Node
  deriving DecidableEq, Repr

/-- The empty trie. -/
def Trie.empty : Trie :=
  { root := none }

/-- The first path unit of a path, counted from 1; 0 for the empty path. -/
def firstUnit : List Byte → Nat
  | [] => 0
  | a :: _ => a.val + 1

/-- The longest common prefix of a path segment and a key, and what is left
of each after it. -/
def splitPrefix : List Byte → List Byte → List Byte × List Byte × List Byte
  | a :: s, b :: k =>
    if a = b then ((a :: (splitPrefix s k).1), (splitPrefix s k).2.1, (splitPrefix s k).2.2)
    else ([], a :: s, b :: k)
  | s, k => ([], s, k)

/-- Modelled from the spec: `put` at one node, `ins` being the insertion into
the children of the node. The key ends at the node (the value is replaced in
place), goes on below it (descend), ends inside its path segment or diverges
from it mid-segment (the node is split and a branch node created). -/
def putAt (ins : List Byte → Children) (s : List Byte) (val : Option (List Byte))
    (kids : Children) (k : List Byte) (v : List Byte) : Node :=
  match splitPrefix s k with
  | (_, [], []) => { pathSegment := s, value := some v, children := kids }
  | (_, [], b :: kr) => { pathSegment := s, value := val, children := ins (b :: kr) }
  | (p, a :: sr, []) =>
    { pathSegment := p, value := some v,
      children := Children.cons (a :: sr) val kids Children.nil }
  | (p, a :: sr, b :: kr) =>
    { pathSegment := p, value := none,
      children :=
        if a < b then
          Children.cons (a :: sr) val kids
            (Children.cons (b :: kr) (some v) Children.nil Children.nil)
        else
          Children.cons (b :: kr) (some v) Children.nil
            (Children.cons (a :: sr) val kids Children.nil) }

/-- Modelled from the spec: `put` below a node: descend into the child on the
first path unit of the key, or create a new leaf when there is none. -/
def insertF : Children → List Byte → List Byte → Children
  | Children.nil, k, v => Children.cons k (some v) Children.nil Children.nil
  | Children.cons s val kids rest, k, v =>
    if firstUnit s = firstUnit k then
      Children.cons (putAt (fun kr => insertF kids kr v) s val kids k v).pathSegment
        (putAt (fun kr => insertF kids kr v) s val kids k v).value
        (putAt (fun kr => insertF kids kr v) s val kids k v).children rest
    else if firstUnit k < firstUnit s then
      Children.cons k (some v) Children.nil (Children.cons s val kids rest)
    else Children.cons s val kids (insertF rest k v)

/-- Modelled from the spec: `put(key, value)` on the trie. -/
def Trie.put (t : Trie) (k v : List Byte) : Trie :=
  match t.root with
  | none => { root := some { pathSegment := k, value := some v, children := Children.nil } }
  | some n =>
    { root := some (putAt (fun kr => insertF n.children kr v) n.pathSegment n.value
        n.children k v) }

/-- Modelled from the spec: the collapse of a node after a removal at or below
it: a node left with no value and no child is pruned (`none`), a node left
with no value and exactly one child is merged with that child, any other node
stays. -/
def collapse (s : List Byte) (val : Option (List Byte)) (kids : Children) : Option Node :=
  match val, kids with
  | none, Children.nil => none
  | none, Children.cons s2 v2 k2 Children.nil =>
    some { pathSegment := s ++ s2, value := v2, children := k2 }
  | _, _ => some { pathSegment := s, value := val, children := kids }

/-- The list of nodes `rest` with the node `o`, when there is one, in front. -/
def consNode (o : Option Node) (rest : Children) : Children :=
  match o with
  | none => rest
  | some n => Children.cons n.pathSegment n.value n.children rest

/-- Modelled from the spec: `delete` below a node: remove the value of the
node the key leads to, then collapse the nodes on the way back. -/
def eraseF : Children → List Byte → Children
  | Children.nil, _ => Children.nil
  | Children.cons s val kids rest, k =>
    if s <+: k then
      if k = s then consNode (collapse s none kids) rest
      else consNode (collapse s val (eraseF kids (k.drop s.length))) rest
    else Children.cons s val kids (eraseF rest k)

/-- Modelled from the spec: `delete(key)` on the trie; deleting an absent key
changes nothing. -/
def Trie.del (t : Trie) (k : List Byte) : Trie :=
  match t.root with
  | none => t
  | some n =>
    if n.pathSegment <+: k then
      if k = n.pathSegment then { root := collapse n.pathSegment none n.children }
      else
        { root := collapse n.pathSegment n.value
            (eraseF n.children (k.drop n.pathSegment.length)) }
    else t

/-- Modelled from the spec: the `(path-unit, child-hash)` pairs of the
children, in ascending order of path unit; the hash of a node is the digest
of its value and of the pairs of its children. -/
def hashPairs {D : Type} (digest : Option (List Byte) → List (Byte × D) → D) :
    Children → List (Byte × D)
  | Children.nil => []
  | Children.cons s val kids rest =>
    (s.headD 0, digest val (hashPairs digest kids)) :: hashPairs digest rest

/-- Modelled from the spec: the root hash, the state digest of the trie;
`emptyRoot` is the digest of the empty trie. -/
def rootHash {D : Type} (digest : Option (List Byte) → List (Byte × D) → D) (emptyRoot : D) :
    Trie → D
  | { root := none } => emptyRoot
  | { root := some n } => digest n.value (hashPairs digest n.children)

/-- The value stored below a list of sibling nodes at key `k`. -/
def lookupF : Children → List Byte → Option (List Byte)
  | Children.nil, _ => none
  | Children.cons s val kids rest, k =>
    if s <+: k then
      if k = s then val else lookupF kids (k.drop s.length)
    else lookupF rest k

/-- The value stored at key `k` at or below the node `n`; `fb` is the answer
when the key does not pass through the node. -/
def Node.lookup (n : Node) (fb : List Byte → Option (List Byte)) (k : List Byte) :
    Option (List Byte) :=
  if n.pathSegment <+: k then
    if k = n.pathSegment then n.value else lookupF n.children (k.drop n.pathSegment.length)
  else fb k

/-- The value stored at key `k` at or below the node `o`, when there is one. -/
def lookupOpt (o : Option Node) (fb : List Byte → Option (List Byte)) (k : List Byte) :
    Option (List Byte) :=
  match o with
  | none => fb k
  | some n => n.lookup fb k

/-- The value stored in the trie at key `k`: the value of the node reached by
concatenating path segments from the root. -/
def Trie.lookup (t : Trie) (k : List Byte) : Option (List Byte) :=
  match t.root with
  | none => none
  | some n => n.lookup (fun _ => none) k

/-- The first path unit of `s` is below the first path unit of every node of
the list (the list being in ascending order, below that of its first node). -/
def HeadLt (s : List Byte) : Children → Prop
  | Children.nil => True
  | Children.cons s2 _ _ _ => firstUnit s < firstUnit s2

/-- The number of nodes of the list. -/
def Children.length : Children → Nat
  | Children.nil => 0
  | Children.cons _ _ _ rest => rest.length + 1

/-- The canonical shape of a list of sibling nodes: non-empty path segments in
strictly ascending order of first path unit, and no node without value with
fewer than two children. -/
def Canonical : Children → Prop
  | Children.nil => True
  | Children.cons s val kids rest =>
    s ≠ [] ∧ (val = none → 2 ≤ kids.length) ∧ Canonical kids ∧ Canonical rest ∧ HeadLt s rest

/-- The canonical shape of a node and of what is below it. -/
def Node.Canonical (n : Node) : Prop :=
  (n.value = none → 2 ≤ n.children.length) ∧ merkledb.Canonical n.children

/-- The canonical shape of a trie: no node without value with fewer than two
children, the root included. -/
def Trie.Canonical (t : Trie) : Prop :=
  match t.root with
  | none => True
  | some n => n.Canonical

/-- Modelled from the spec: the trie as the tree a batch is bound to. `put`
and `delete` return no error here (the encoding and backend errors of the
spec are not modelled), a nil key or value is the empty one, and `Commit`
leaves the trie as it is. -/
def trieTree : Tree Trie Nat :=
  { put := fun t key value => (t.put (key.getD []) (value.getD []), none)
    del := fun t key => (t.del (key.getD []), none)
    persistence := { Commit := fun t => (t, none) } }

/-- The key-value set after one mutation of the key-value set `m`. -/
def Mutation.kv (m : List Byte → Option (List Byte)) :
    Mutation → List Byte → Option (List Byte)
  | Mutation.Put key value => fun y => if y = key.getD [] then some (value.getD []) else m y
  | Mutation.Delete key => fun y => if y = key.getD [] then none else m y

/-- The final key-value set of a sequence of mutations of the empty store. -/
def Mutation.kvAll (ms : List Mutation) : List Byte → Option (List Byte) :=
  ms.foldl Mutation.kv (fun _ => none)

/-- A sample digest into the natural numbers. -/
def sampleDigest (value : Option (List Byte)) (pairs : List (Byte × Nat)) : Nat :=
  (pairs.foldl (fun acc p => 31 * acc + 7 * p.1.val + p.2) 17) * 257 +
    (value.map (fun v => v.foldl (fun acc b => 256 * acc + b.val + 1) 1)).getD 0

/-- The mutations `Put(a, 1)`, `Put(b, 2)`, `Delete(a)`. -/
def abMutations : List Mutation :=
  [Mutation.Put (some [97]) (some [49]), Mutation.Put (some [98]) (some [50]),
   Mutation.Delete (some [97])]

/-- The mutation `Put(b, 2)` alone. -/
def bMutations : List Mutation :=
  [Mutation.Put (some [98]) (some [50])]

/-- An empty trie, no call made yet. -/
def emptyTrieWorld : World Trie :=
  { state := Trie.empty, calls := [] }

end merkledb

/-!
# avm asset creation (vms/avm/create_asset_tx.go)

A shallow embedding of `CreateAssetTx.SyntacticVerify`.

Modelling conventions:

* A Go `string` is `GoString`, its list of bytes; `len` is the number of
  bytes and `range` yields the runes of the UTF-8 decoding (`runes`), an
  invalid byte giving `RuneError`.
* The functions `BaseTx.SyntacticVerify`, `InitialState.Verify` and
  `isSortedAndUniqueInitialStates` and the constant `preApricotCodecVersion`
  are not part of `create_asset_tx.go`; they are the fields of `Externals`.
* The elements of `States` are non-nil pointers.
-/

namespace avm

/-- A Go string: its bytes. -/
abbrev GoString := List (Fin 256)

/-- `utf8.RuneError`. -/
def RuneError : Nat := 0xFFFD

/-- `unicode.MaxASCII`. -/
def MaxASCII : Nat := 0x7F

/-- A UTF-8 continuation byte, `0x80..0xBF`. -/
def isCont (b : Fin 256) : Bool :=
  0x80 ≤ b.val && b.val ≤ 0xBF

/-- The least second byte accepted after the first byte `b0` of a
multi-byte encoding. -/
def secondLo (b0 : Fin 256) : Nat :=
  if b0.val = 0xE0 then 0xA0 else if b0.val = 0xF0 then 0x90 else 0x80

/-- The greatest second byte accepted after the first byte `b0` of a
multi-byte encoding. -/
def secondHi (b0 : Fin 256) : Nat :=
  if b0.val = 0xED then 0x9F else if b0.val = 0xF4 then 0x8F else 0xBF

/-- `utf8.DecodeRuneInString`: the first rune of `s` and its width in bytes;
`(RuneError, 1)` for an invalid encoding, `(RuneError, 0)` for the empty
string. -/
def DecodeRune : GoString → Nat × Nat
  | [] => (RuneError, 0)
  | b0 :: rest =>
    if b0.val < 0x80 then (b0.val, 1)
    else if b0.val < 0xC2 then (RuneError, 1)
    else if b0.val ≤ 0xDF then
      match rest with
      | b1 :: _ =>
        if isCont b1 then ((b0.val % 32) * 64 + b1.val % 64, 2) else (RuneError, 1)
      | _ => (RuneError, 1)
    else if b0.val ≤ 0xEF then
      match rest with
      | b1 :: b2 :: _ =>
        if secondLo b0 ≤ b1.val && b1.val ≤ secondHi b0 && isCont b2 then
          ((b0.val % 16) * 4096 + (b1.val % 64) * 64 + b2.val % 64, 3)
        else (RuneError, 1)
      | _ => (RuneError, 1)
    else if b0.val ≤ 0xF4 then
      match rest with
      | b1 :: b2 :: b3 :: _ =>
        if secondLo b0 ≤ b1.val && b1.val ≤ secondHi b0 && isCont b2 && isCont b3 then
          ((b0.val % 8) * 262144 + (b1.val % 64) * 4096 + (b2.val % 64) * 64 + b3.val % 64, 4)
        else (RuneError, 1)
      | _ => (RuneError, 1)
    else (RuneError, 1)

/-- The runes of `for _, r := range s`, with at most `fuel` iterations: each
iteration decodes one rune and moves past its bytes. -/
def runesAux : Nat → GoString → List Nat
  | 0, _ => []
  | _ + 1, [] => []
  | fuel + 1, b :: rest =>
    (DecodeRune (b :: rest)).1 ::
      runesAux fuel (rest.drop ((DecodeRune (b :: rest)).2 - 1))

/-- The runes that `for _, r := range s` yields. Every iteration consumes at
least one byte, so `len(s)` iterations are enough. -/
def runes (s : GoString) : List Nat :=
  runesAux s.length s

/-- `unicode.IsSpace`. -/
def IsSpace (r : Nat) : Bool :=
  if r ≤ 0xFF then
    r = 0x09 || r = 0x0A || r = 0x0B || r = 0x0C || r = 0x0D || r = 0x20 || r = 0x85 || r = 0xA0
  else
    r = 0x1680 || (0x2000 ≤ r && r ≤ 0x200A) || r = 0x2028 || r = 0x2029 || r = 0x202F ||
      r = 0x205F || r = 0x3000

/-- `unicode.IsLetter` on the ASCII range, where the code evaluates it. -/
def IsLetter (r : Nat) : Bool :=
  (0x41 ≤ r && r ≤ 0x5A) || (0x61 ≤ r && r ≤ 0x7A)

/-- `unicode.IsNumber` on the ASCII range, where the code evaluates it. -/
def IsNumber (r : Nat) : Bool :=
  0x30 ≤ r && r ≤ 0x39

/-- `unicode.IsUpper` on the ASCII range, where the code evaluates it. -/
def IsUpper (r : Nat) : Bool :=
  0x41 ≤ r && r ≤ 0x5A

/-- `utf8.RuneStart`: the byte is not a continuation byte. -/
def RuneStart (b : Fin 256) : Bool :=
  !isCont b

/-- `utf8.DecodeLastRuneInString`: the last rune of `s` and its width. The
rune starts at the nearest of the up to three bytes before the last one that
can start a rune, and it must end exactly at the end of `s`. -/
def DecodeLastRune (s : GoString) : Nat × Nat :=
  match s.reverse with
  | [] => (RuneError, 0)
  | last :: before =>
    if last.val < 0x80 then (last.val, 1)
    else
      match (before.take 3).findIdx? RuneStart with
      | none => (RuneError, 1)
      | some j =>
        if (DecodeRune ((before.take (j + 1)).reverse ++ [last])).2 = j + 2 then
          DecodeRune ((before.take (j + 1)).reverse ++ [last])
        else (RuneError, 1)

/-- `strings.TrimLeftFunc(s, unicode.IsSpace)` with at most `fuel` runes
removed. -/
def trimLeftAux : Nat → GoString → GoString
  | 0, s => s
  | _ + 1, [] => []
  | fuel + 1, b :: rest =>
    if IsSpace (DecodeRune (b :: rest)).1 then
      trimLeftAux fuel (rest.drop ((DecodeRune (b :: rest)).2 - 1))
    else b :: rest

/-- `strings.TrimRightFunc(s, unicode.IsSpace)` with at most `fuel` runes
removed. -/
def trimRightAux : Nat → GoString → GoString
  | 0, s => s
  | fuel + 1, s =>
    if s.isEmpty then s
    else if IsSpace (DecodeLastRune s).1 then
      trimRightAux fuel (s.take (s.length - (DecodeLastRune s).2))
    else s

/-- `strings.TrimSpace`: `s` without its leading and trailing white space. -/
def TrimSpace (s : GoString) : GoString :=
  trimRightAux (trimLeftAux s.length s).length (trimLeftAux s.length s)

/-- The error values of the package that `SyntacticVerify` can return;
`external` stands for any other error of the functions it calls. -/
inductive Error where
  | errNilTx
  | errInitialStatesNotSortedUnique
  | errNameTooShort
  | errNameTooLong
  | errSymbolTooShort
  | errSymbolTooLong
  | errNoFxs
  | errIllegalNameCharacter
  | errIllegalSymbolCharacter
  | errUnexpectedWhitespace
  | errDenominationTooLarge
  | errMultipleManagers
  | errCreateManagedAssetBadCodec
  | external (code : Nat)
  deriving DecidableEq, Repr

def minNameLen : Nat := 1

def maxNameLen : Nat := 128

def minSymbolLen : Nat := 1

def maxSymbolLen : Nat := 4

def maxDenomination : Nat := 32

/-- An output held by an initial state: either a
`*secp256k1fx.ManagedAssetStatusOutput` or a value of another type. -/
inductive Output where
  | ManagedAssetStatusOutput (content : Nat)
  | other (content : Nat)
  deriving DecidableEq, Repr

/-- The type assertion `out.(*secp256k1fx.ManagedAssetStatusOutput)`. -/
def Output.isManagedAssetStatusOutput : Output → Bool
  | Output.ManagedAssetStatusOutput _ => true
  | Output.other _ => false

/-- The fields of `InitialState` that `SyntacticVerify` reads. -/
structure InitialState where
  FxID : Nat
  Outs : List Output
  deriving DecidableEq, Repr

/-- The `CreateAssetTx` struct. -/
structure CreateAssetTx (BaseTx : Type) where
  BaseTx : BaseTx
  Name : GoString
  Symbol : GoString
  Denomination : Fin 256
  States : List InitialState

/-- The functions and the constant that `SyntacticVerify` uses and that are
defined elsewhere in the package. -/
structure Externals (Ctx Codec ID BaseTx : Type) where
  preApricotCodecVersion : Nat
  BaseTxSyntacticVerify : BaseTx → Ctx → Codec → Nat → ID → Nat → Nat → Int → Option Error
  InitialStateVerify : InitialState → Codec → Nat → Int → Option Error
  isSortedAndUniqueInitialStates : List InitialState → Bool

/-- The `switch` at the head of `SyntacticVerify` for a non-nil transaction:
the first case that holds decides. -/
def sizeSwitch {BaseTx : Type} (t : CreateAssetTx BaseTx) : Option Error :=
  if t.Name.length < minNameLen then some Error.errNameTooShort
  else if t.Name.length > maxNameLen then some Error.errNameTooLong
  else if t.Symbol.length < minSymbolLen then some Error.errSymbolTooShort
  else if t.Symbol.length > maxSymbolLen then some Error.errSymbolTooLong
  else if t.States.length = 0 then some Error.errNoFxs
  else if t.Denomination.val > maxDenomination then some Error.errDenominationTooLarge
  else if TrimSpace t.Name ≠ t.Name then some Error.errUnexpectedWhitespace
  else none

/-- The loop `for _, r := range t.Name` over the remaining runes. -/
def nameLoop : List Nat → Option Error
  | [] => none
  | r :: rs =>
    if r > MaxASCII || !(IsLetter r || IsNumber r || r = 0x20) then
      some Error.errIllegalNameCharacter
    else nameLoop rs

/-- The loop `for _, r := range t.Symbol` over the remaining runes. -/
def symbolLoop : List Nat → Option Error
  | [] => none
  | r :: rs =>
    if r > MaxASCII || !IsUpper r then some Error.errIllegalSymbolCharacter
    else symbolLoop rs

/-- The loop calling `state.Verify(c, codecVersion, numFxs)` on the remaining
states. -/
def statesLoop {Ctx Codec ID BaseTx : Type} (x : Externals Ctx Codec ID BaseTx) (c : Codec)
    (codecVersion : Nat) (numFxs : Int) : List InitialState → Option Error
  | [] => none
  | state :: rest =>
    match x.InitialStateVerify state c codecVersion numFxs with
    | some err => some err
    | none => statesLoop x c codecVersion numFxs rest

/-- The inner loop over `state.Outs`: `Except.error` is the early
`return errMultipleManagers`, `Except.ok` carries `hasManager`. -/
def outsLoop : List Output → Bool → Except Error Bool
  | [], hasManager => Except.ok hasManager
  | out :: outs, hasManager =>
    if out.isManagedAssetStatusOutput then
      if hasManager then Except.error Error.errMultipleManagers
      else outsLoop outs true
    else outsLoop outs hasManager

/-- The loop over `t.States` that looks for manager outputs: a state whose
`FxID` is not 0 is skipped. -/
def managerLoop : List InitialState → Bool → Except Error Bool
  | [], hasManager => Except.ok hasManager
  | state :: rest, hasManager =>
    if state.FxID ≠ 0 then managerLoop rest hasManager
    else
      match outsLoop state.Outs hasManager with
      | Except.error err => Except.error err
      | Except.ok h => managerLoop rest h

/-- `SyntacticVerify`; `none` is the nil pointer receiver. The fifth
argument of the Go method is unnamed and unused. -/
def CreateAssetTx.SyntacticVerify {Ctx Codec ID BaseTx : Type}
    (x : Externals Ctx Codec ID BaseTx) (t : Option (CreateAssetTx BaseTx)) (ctx : Ctx)
    (c : Codec) (codecVersion : Nat) (txFeeAssetID : ID) (_unused : Nat) (txFee : Nat)
    (numFxs : Int) : Option Error :=
  match t with
  | none => some Error.errNilTx
  | some t =>
    match sizeSwitch t with
    | some err => some err
    | none =>
      match nameLoop (runes t.Name) with
      | some err => some err
      | none =>
        match symbolLoop (runes t.Symbol) with
        | some err => some err
        | none =>
          match x.BaseTxSyntacticVerify t.BaseTx ctx c codecVersion txFeeAssetID txFee txFee
              numFxs with
          | some err => some err
          | none =>
            match statesLoop x c codecVersion numFxs t.States with
            | some err => some err
            | none =>
              if !x.isSortedAndUniqueInitialStates t.States then
                some Error.errInitialStatesNotSortedUnique
              else
                match managerLoop t.States false with
                | Except.error err => some err
                | Except.ok hasManager =>
                  if hasManager && codecVersion = x.preApricotCodecVersion then
                    some Error.errCreateManagedAssetBadCodec
                  else none

/-! ## Concrete transactions -/

/-- The string of the ASCII characters of `s`. -/
def ascii (s : String) : GoString :=
  s.toList.map (fun ch => Fin.ofNat ch.toNat)

/-- Externals that accept every transaction, with pre-Apricot codec version 0. -/
def acceptAll : Externals Unit Unit Unit Unit :=
  { preApricotCodecVersion := 0
    BaseTxSyntacticVerify := fun _ _ _ _ _ _ _ _ => none
    InitialStateVerify := fun _ _ _ _ => none
    isSortedAndUniqueInitialStates := fun _ => true }


/-- The checks of `SyntacticVerify` that come before the search for manager
outputs all pass on the non-nil transaction `t`. -/
def PassesEarlierChecks {Ctx Codec ID BaseTx : Type} (x : Externals Ctx Codec ID BaseTx)
    (t : CreateAssetTx BaseTx) (ctx : Ctx) (c : Codec) (codecVersion : Nat)
    (txFeeAssetID : ID) (txFee : Nat) (numFxs : Int) : Prop :=
  sizeSwitch t = none ∧
  nameLoop (runes t.Name) = none ∧
  symbolLoop (runes t.Symbol) = none ∧
  x.BaseTxSyntacticVerify t.BaseTx ctx c codecVersion txFeeAssetID txFee txFee numFxs = none ∧
  statesLoop x c codecVersion numFxs t.States = none ∧
  x.isSortedAndUniqueInitialStates t.States = true

/-- The number of `ManagedAssetStatusOutput` outputs of one state. -/
def InitialState.managers (s : InitialState) : Nat :=
  s.Outs.countP Output.isManagedAssetStatusOutput

/-- The number of `ManagedAssetStatusOutput` outputs over all the states,
whatever their `FxID`. -/
def managerCount (states : List InitialState) : Nat :=
  (states.map InitialState.managers).sum

/-- The number of `ManagedAssetStatusOutput` outputs over the states whose
`FxID` is 0. -/
def managerCountFx0 (states : List InitialState) : Nat :=
  ((states.filter (fun s => s.FxID = 0)).map InitialState.managers).sum

/-- The string begins with a white space rune. -/
def beginsWithSpace (s : GoString) : Prop :=
  s ≠ [] ∧ IsSpace (DecodeRune s).1 = true

/-- The string ends with a white space rune. -/
def endsWithSpace (s : GoString) : Prop :=
  s ≠ [] ∧ IsSpace (DecodeLastRune s).1 = true


/-- An initial state of the fx with ID 0 holding one output that is not a
manager output. -/
def plainState : InitialState :=
  { FxID := 0, Outs := [Output.other 1] }

/-- A well-formed transaction without manager output. -/
def plainTx : CreateAssetTx Unit :=
  { BaseTx := (), Name := ascii ("Coin1"), Symbol := ascii ("ABC"), Denomination := 8,
    States := [plainState] }

/-- A transaction whose name has a space between two words. -/
def spacedTx : CreateAssetTx Unit :=
  { plainTx with Name := ascii ("My Coin") }

/-- A transaction whose name begins with a space and holds an illegal
character, and whose symbol is in lower case. -/
def paddedTx : CreateAssetTx Unit :=
  { plainTx with Name := ascii (" a*"), Symbol := ascii ("ab") }

/-- A transaction whose symbol has a lower-case letter. -/
def lowerSymbolTx : CreateAssetTx Unit :=
  { plainTx with Symbol := ascii ("Ab") }

/-- A transaction with an empty name. -/
def noNameTx : CreateAssetTx Unit :=
  { plainTx with Name := [] }

/-- A transaction with a name of 129 bytes. -/
def longNameTx : CreateAssetTx Unit :=
  { plainTx with Name := List.replicate 129 0x41 }

/-- A transaction with an empty symbol. -/
def noSymbolTx : CreateAssetTx Unit :=
  { plainTx with Symbol := [] }

/-- A transaction with a symbol of five bytes. -/
def longSymbolTx : CreateAssetTx Unit :=
  { plainTx with Symbol := ascii ("ABCDE") }

/-- A transaction without initial state. -/
def noStatesTx : CreateAssetTx Unit :=
  { plainTx with States := [] }

/-- A transaction with denomination 33. -/
def bigDenominationTx : CreateAssetTx Unit :=
  { plainTx with Denomination := 33 }

/-- A transaction with one manager output in a state of the fx with ID 0. -/
def oneManagerTx : CreateAssetTx Unit :=
  { plainTx with States := [{ FxID := 0, Outs := [Output.ManagedAssetStatusOutput 1] }] }

/-- A transaction with two manager outputs in states of the fx with ID 0. -/
def twoManagersTx : CreateAssetTx Unit :=
  { plainTx with
    States := [{ FxID := 0, Outs := [Output.ManagedAssetStatusOutput 1] },
               { FxID := 0, Outs := [Output.other 2, Output.ManagedAssetStatusOutput 3] }] }

/-- A transaction with two manager outputs in a state of the fx with ID 1. -/
def twoManagersFx1Tx : CreateAssetTx Unit :=
  { plainTx with
    States := [{ FxID := 1,
                 Outs := [Output.ManagedAssetStatusOutput 1,
                          Output.ManagedAssetStatusOutput 2] }] }

/-- The transaction `twoManagersFx1Tx` with its state moved to the fx with
ID 0. -/
def twoManagersFx0Tx : CreateAssetTx Unit :=
  { plainTx with
    States := [{ FxID := 0,
                 Outs := [Output.ManagedAssetStatusOutput 1,
                          Output.ManagedAssetStatusOutput 2] }] }

/-- A transaction with one manager output in a state of the fx with ID 1. -/
def managerFx1Tx : CreateAssetTx Unit :=
  { plainTx with States := [{ FxID := 1, Outs := [Output.ManagedAssetStatusOutput 1] }] }

end avm

/-! ## The write loop -/

namespace merkledb

variable {σ ε ω : Type}

theorem tree_applyAll_cons (t : Tree σ ε) (s : σ) (d : batchValue) (ds : List batchValue) :
    t.applyAll s (d :: ds) = t.applyAll (t.apply s d).1 ds := rfl

theorem tree_applyAll_append (t : Tree σ ε) (s : σ) (ds es : List batchValue) :
    t.applyAll s (ds ++ es) = t.applyAll (t.applyAll s ds) es := by
  simp [Tree.applyAll, List.foldl_append]

theorem tree_errAt_zero (t : Tree σ ε) (s : σ) (d : batchValue) (ds : List batchValue) :
    t.errAt s (d :: ds) 0 = (t.apply s d).2 := by
  simp [Tree.errAt, Tree.applyAll]

theorem tree_errAt_succ (t : Tree σ ε) (s : σ) (d : batchValue) (ds : List batchValue)
    (i : Nat) : t.errAt s (d :: ds) (i + 1) = t.errAt (t.apply s d).1 ds i := by
  simp [Tree.errAt, Tree.applyAll]

theorem treeCall_ne_commit (d : batchValue) : d.treeCall ≠ TreeCall.commit := by
  unfold batchValue.treeCall
  split <;> simp

theorem commit_not_mem_treeCalls (ds : List batchValue) :
    TreeCall.commit ∉ ds.map batchValue.treeCall := by
  intro h
  obtain ⟨d, _, hd⟩ := List.mem_map.mp h
  exact treeCall_ne_commit d hd

/-- One iteration of the loop of `Write`: the call made for `d` is the
operation of `d` applied to the current state, logged as `d.treeCall`. -/
theorem writeLoop_cons (t : Tree σ ε) (d : batchValue) (ds : List batchValue) (w : World σ) :
    Batch.writeLoop t (d :: ds) w =
      match (t.apply w.state d).2 with
      | some err => ({ state := (t.apply w.state d).1, calls := w.calls ++ [d.treeCall] }, some err)
      | none =>
        Batch.writeLoop t ds { state := (t.apply w.state d).1, calls := w.calls ++ [d.treeCall] } := by
  cases hd : d.delete <;>
    simp [Batch.writeLoop, Tree.apply, Tree.callDel, Tree.callPut, batchValue.treeCall, hd]

/-- The loop of `Write` when the operation of entry `k` is the first to fail. -/
theorem writeLoop_fail (t : Tree σ ε) :
    ∀ (ds : List batchValue) (w : World σ) (k : Nat) (e : ε),
      (∀ i, i < k → t.errAt w.state ds i = none) →
      t.errAt w.state ds k = some e →
      Batch.writeLoop t ds w =
        ({ state := t.applyAll w.state (ds.take (k + 1)),
           calls := w.calls ++ (ds.take (k + 1)).map batchValue.treeCall }, some e)
  | [], _, k, e, _, hk => by simp [Tree.errAt] at hk
  | d :: ds, w, 0, e, _, hk => by
    rw [tree_errAt_zero] at hk
    rw [writeLoop_cons, hk]
    simp [Tree.applyAll]
  | d :: ds, w, k + 1, e, hlt, hk => by
    have h0 : (t.apply w.state d).2 = none := by
      have := hlt 0 (Nat.succ_pos k)
      rwa [tree_errAt_zero] at this
    rw [tree_errAt_succ] at hk
    rw [writeLoop_cons, h0]
    have ih := writeLoop_fail t ds
      { state := (t.apply w.state d).1, calls := w.calls ++ [d.treeCall] } k e
      (fun i hi => by
        have := hlt (i + 1) (Nat.succ_lt_succ hi)
        rwa [tree_errAt_succ] at this)
      hk
    simp only [ih]
    simp [Tree.applyAll]

/-- The loop of `Write` when no operation fails. -/
theorem writeLoop_ok (t : Tree σ ε) :
    ∀ (ds : List batchValue) (w : World σ),
      (∀ i, i < ds.length → t.errAt w.state ds i = none) →
      Batch.writeLoop t ds w =
        ({ state := t.applyAll w.state ds,
           calls := w.calls ++ ds.map batchValue.treeCall }, none)
  | [], w, _ => by simp [Batch.writeLoop, Tree.applyAll]
  | d :: ds, w, hlt => by
    have h0 : (t.apply w.state d).2 = none := by
      have := hlt 0 (by simp)
      rwa [tree_errAt_zero] at this
    rw [writeLoop_cons, h0]
    have ih := writeLoop_ok t ds
      { state := (t.apply w.state d).1, calls := w.calls ++ [d.treeCall] }
      (fun i hi => by
        have := hlt (i + 1) (by simpa using hi)
        rwa [tree_errAt_succ] at this)
    simp only [ih]
    simp [Tree.applyAll]

/-! ## C1 -/

/-- C1: `Write` is fail-fast. If, applying the buffered operations in order,
the operation of entry `k` is the first to return an error `e`, then `Write`
returns exactly `e`; the calls it issued are exactly the operations of entries
`0..k` in order (so none for entries `k+1..n-1`), `Commit` is not among them,
and the tree state is the one left by those `k+1` operations. -/
theorem Write_fail_fast (b : Batch σ ε) (w : World σ) (k : Nat) (e : ε)
    (hok : ∀ i, i < k → b.tree.errAt w.state b.data i = none)
    (hfail : b.tree.errAt w.state b.data k = some e) :
    (b.Write w).2.2 = some e ∧
    (b.Write w).2.1.calls = w.calls ++ (b.data.take (k + 1)).map batchValue.treeCall ∧
    ((b.data.take (k + 1)).map batchValue.treeCall).length = k + 1 ∧
    TreeCall.commit ∉ (b.data.take (k + 1)).map batchValue.treeCall ∧
    (b.Write w).2.1.state = b.tree.applyAll w.state (b.data.take (k + 1)) := by
  have hloop := writeLoop_fail b.tree b.data w k e hok hfail
  have hk : k < b.data.length := by
    by_contra hge
    have : b.data[k]? = none := List.getElem?_eq_none (Nat.le_of_not_lt hge)
    simp [Tree.errAt, this] at hfail
  refine ⟨?_, ?_, ?_, commit_not_mem_treeCalls _, ?_⟩
  · simp [Batch.Write, hloop]
  · simp [Batch.Write, hloop]
  · simp [List.length_take]; omega
  · simp [Batch.Write, hloop]

theorem Write_fail_fast_witness :
    (∀ i, i < 1 → badBatch.tree.errAt emptyWorld.state badBatch.data i = none) ∧
    badBatch.tree.errAt emptyWorld.state badBatch.data 1 = some 1 ∧
    ((badBatch.Write emptyWorld).2.2 = some 1 ∧
     (badBatch.Write emptyWorld).2.1.calls =
       emptyWorld.calls ++ (badBatch.data.take (1 + 1)).map batchValue.treeCall ∧
     ((badBatch.data.take (1 + 1)).map batchValue.treeCall).length = 1 + 1 ∧
     TreeCall.commit ∉ (badBatch.data.take (1 + 1)).map batchValue.treeCall ∧
     (badBatch.Write emptyWorld).2.1.state =
       badBatch.tree.applyAll emptyWorld.state (badBatch.data.take (1 + 1))) :=
  ⟨by decide, by decide, Write_fail_fast badBatch emptyWorld 1 1 (by decide) (by decide)⟩

/-! ## Direct application and the buffer built by `Put`/`Delete` -/

theorem tree_allOk_iff (t : Tree σ ε) :
    ∀ (ds : List batchValue) (s : σ),
      t.allOk s ds = true ↔ ∀ i, i < ds.length → t.errAt s ds i = none
  | [], s => by simp [Tree.allOk]
  | d :: ds, s => by
    rw [Tree.allOk, Bool.and_eq_true, tree_allOk_iff t ds, Option.isNone_iff_eq_none]
    constructor
    · rintro ⟨h0, hrest⟩ i hi
      cases i with
      | zero => rw [tree_errAt_zero]; exact h0
      | succ j => rw [tree_errAt_succ]; exact hrest j (by simpa using hi)
    · intro h
      refine ⟨?_, fun i hi => ?_⟩
      · have := h 0 (by simp)
        rwa [tree_errAt_zero] at this
      · have := h (i + 1) (by simpa using hi)
        rwa [tree_errAt_succ] at this

/-- When some entry fails there is a first failing entry. -/
theorem tree_first_fail (t : Tree σ ε) :
    ∀ (ds : List batchValue) (s : σ), t.allOk s ds = false →
      ∃ k e, (∀ i, i < k → t.errAt s ds i = none) ∧ t.errAt s ds k = some e
  | [], s, h => by simp [Tree.allOk] at h
  | d :: ds, s, h => by
    cases h0 : (t.apply s d).2 with
    | some e =>
      exact ⟨0, e, fun i hi => absurd hi (Nat.not_lt_zero i), by rw [tree_errAt_zero, h0]⟩
    | none =>
      have hrest : t.allOk (t.apply s d).1 ds = false := by
        simpa [Tree.allOk, h0] using h
      obtain ⟨k, e, hlt, hk⟩ := tree_first_fail t ds _ hrest
      refine ⟨k + 1, e, fun i hi => ?_, by rw [tree_errAt_succ]; exact hk⟩
      cases i with
      | zero => rw [tree_errAt_zero]; exact h0
      | succ j => rw [tree_errAt_succ]; exact hlt j (by omega)

theorem mutation_apply_entry (t : Tree σ ε) (s : σ) (m : Mutation) :
    t.apply s m.entry = m.direct t s := by
  cases m <;> simp [Tree.apply, Mutation.entry, Mutation.direct]

theorem mutation_entry_treeCall (m : Mutation) : m.entry.treeCall = m.call := by
  cases m <;> simp [batchValue.treeCall, Mutation.entry, Mutation.call]

theorem mutation_applyAll_entries (t : Tree σ ε) :
    ∀ (ms : List Mutation) (s : σ),
      t.applyAll s (ms.map Mutation.entry) = Mutation.directAll t s ms
  | [], _ => rfl
  | m :: ms, s => by
    have ih := mutation_applyAll_entries t ms (m.direct t s).1
    simpa [Tree.applyAll, Mutation.directAll, mutation_apply_entry] using ih

theorem mutation_allOk_entries (t : Tree σ ε) :
    ∀ (ms : List Mutation) (s : σ),
      t.allOk s (ms.map Mutation.entry) = Mutation.directOk t s ms
  | [], _ => rfl
  | m :: ms, s => by
    simp [Tree.allOk, Mutation.directOk, mutation_apply_entry,
      mutation_allOk_entries t ms (m.direct t s).1]

theorem sys_run_append (s : Sys σ ε ω) (xs ys : List (Op ω ε)) :
    s.run (xs ++ ys) = (s.run xs).run ys := by
  simp [Sys.run, List.foldl_append]

/-- A run of `Put`/`Delete` calls appends their entries in order and touches
nothing else. -/
theorem sys_run_mutations :
    ∀ (ms : List Mutation) (s : Sys σ ε ω),
      s.run (ms.map Mutation.op) =
        { s with batch := { s.batch with data := s.batch.data ++ ms.map Mutation.entry } }
  | [], s => by simp [Sys.run]
  | m :: ms, s => by
    have ih := sys_run_mutations ms (s.step (Mutation.op m)).1
    simp only [Sys.run, List.map_cons, List.foldl_cons] at ih ⊢
    rw [ih]
    cases m <;>
      simp [Sys.step, Mutation.op, Mutation.entry, Batch.Put, Batch.Delete]

/-- `Write` when no entry fails: every operation in order, then one `Commit`
whose result is returned. -/
theorem Write_of_allOk (b : Batch σ ε) (w : World σ) (h : b.tree.allOk w.state b.data = true) :
    b.Write w =
      (b, { state := (b.tree.persistence.Commit (b.tree.applyAll w.state b.data)).1,
            calls := w.calls ++ b.data.map batchValue.treeCall ++ [TreeCall.commit] },
          (b.tree.persistence.Commit (b.tree.applyAll w.state b.data)).2) := by
  have hloop := writeLoop_ok b.tree b.data w ((tree_allOk_iff b.tree b.data w.state).mp h)
  simp [Batch.Write, hloop, Tree.callCommit]

/-! ## C2 -/

/-- C2: batch equivalence. For mutations `ms` none of which fails when applied
directly to the tree in order, buffer them with `Put`/`Delete` on a fresh
batch and call `Write`. The loop of `Write` ends without error in exactly the
state of the left fold of the direct operations, having issued exactly those
operations in order; `Write` then hands that state to `Commit`, so the final
state is `Commit` of the fold, and every observation of the state that
`Commit` does not alter (the key-value set, the root hash) is the same after
`Write` as after the direct operations. -/
theorem Write_equiv_direct (t : Tree σ ε) (w : World σ) (k : Sink ω) (ms : List Mutation)
    (hok : Mutation.directOk t w.state ms = true) :
    Batch.writeLoop t ((Sys.fresh t w k).run (ms.map Mutation.op)).batch.data w =
      ({ state := Mutation.directAll t w.state ms,
         calls := w.calls ++ ms.map Mutation.call }, none) ∧
    ((Sys.fresh t w k).run (ms.map Mutation.op ++ [Op.Write])).world.state =
      (t.persistence.Commit (Mutation.directAll t w.state ms)).1 ∧
    ((Sys.fresh t w k).run (ms.map Mutation.op ++ [Op.Write])).world.calls =
      w.calls ++ ms.map Mutation.call ++ [TreeCall.commit] ∧
    ∀ (α : Type) (obs : σ → α), (∀ s, obs (t.persistence.Commit s).1 = obs s) →
      obs ((Sys.fresh t w k).run (ms.map Mutation.op ++ [Op.Write])).world.state =
        obs (Mutation.directAll t w.state ms) := by
  have hcalls : ∀ l : List Mutation,
      List.map batchValue.treeCall (List.map Mutation.entry l) = List.map Mutation.call l := by
    intro l
    simp [List.map_map, Function.comp_def, mutation_entry_treeCall]
  have hall : t.allOk w.state (ms.map Mutation.entry) = true := by
    rw [mutation_allOk_entries]; exact hok
  have hdata : ((Sys.fresh t w k).run (ms.map Mutation.op)).batch.data = ms.map Mutation.entry := by
    rw [sys_run_mutations]; simp [Sys.fresh, NewBatch]
  have hW := Write_of_allOk { data := ms.map Mutation.entry, tree := t } w hall
  have hstate : ((Sys.fresh t w k).run (ms.map Mutation.op ++ [Op.Write])).world =
      { state := (t.persistence.Commit (Mutation.directAll t w.state ms)).1,
        calls := w.calls ++ ms.map Mutation.call ++ [TreeCall.commit] } := by
    rw [sys_run_append, sys_run_mutations]
    simp only [Sys.run, List.foldl_cons, List.foldl_nil, Sys.step, Sys.fresh, NewBatch,
      List.nil_append]
    rw [hW]
    simp [hcalls, mutation_applyAll_entries]
  refine ⟨?_, ?_, ?_, ?_⟩
  · rw [hdata, writeLoop_ok t _ w ((tree_allOk_iff t _ w.state).mp hall)]
    simp [hcalls, mutation_applyAll_entries]
  · rw [hstate]
  · rw [hstate]
  · intro α obs hobs
    rw [hstate]
    exact hobs _

theorem Write_equiv_direct_witness :
    Mutation.directOk KV.tree emptyWorld.state goodMutations = true ∧
    (Batch.writeLoop KV.tree
        ((Sys.fresh KV.tree emptyWorld emptySink).run (goodMutations.map Mutation.op)).batch.data
        emptyWorld =
      ({ state := Mutation.directAll KV.tree emptyWorld.state goodMutations,
         calls := emptyWorld.calls ++ goodMutations.map Mutation.call }, none) ∧
    ((Sys.fresh KV.tree emptyWorld emptySink).run
        (goodMutations.map Mutation.op ++ [Op.Write])).world.state =
      (KV.tree.persistence.Commit (Mutation.directAll KV.tree emptyWorld.state goodMutations)).1 ∧
    ((Sys.fresh KV.tree emptyWorld emptySink).run
        (goodMutations.map Mutation.op ++ [Op.Write])).world.calls =
      emptyWorld.calls ++ goodMutations.map Mutation.call ++ [TreeCall.commit] ∧
    ∀ (α : Type) (obs : KV → α), (∀ s, obs (KV.tree.persistence.Commit s).1 = obs s) →
      obs ((Sys.fresh KV.tree emptyWorld emptySink).run
        (goodMutations.map Mutation.op ++ [Op.Write])).world.state =
        obs (Mutation.directAll KV.tree emptyWorld.state goodMutations)) :=
  ⟨by decide, Write_equiv_direct KV.tree emptyWorld emptySink goodMutations (by decide)⟩

/-! ## C3 -/

/-- C3: `Commit` is called exactly once, after the operation of the last
entry, when every buffered operation succeeded, and then `Write` returns the
result of `Commit` as it is; when some operation failed, `Write` issues no
`Commit` and returns a non-nil error. -/
theorem Write_commit_once (b : Batch σ ε) (w : World σ) :
    (b.tree.allOk w.state b.data = true →
      (b.Write w).2.1.calls = w.calls ++ b.data.map batchValue.treeCall ++ [TreeCall.commit] ∧
      (b.Write w).2.1.calls.count TreeCall.commit = w.calls.count TreeCall.commit + 1 ∧
      (b.Write w).2.2 = (b.tree.persistence.Commit (b.tree.applyAll w.state b.data)).2 ∧
      (b.Write w).2.1.state =
        (b.tree.persistence.Commit (b.tree.applyAll w.state b.data)).1) ∧
    (b.tree.allOk w.state b.data = false →
      (∃ n, n ≤ b.data.length ∧
        (b.Write w).2.1.calls = w.calls ++ (b.data.take n).map batchValue.treeCall) ∧
      (b.Write w).2.1.calls.count TreeCall.commit = w.calls.count TreeCall.commit ∧
      (b.Write w).2.2 ≠ none) := by
  have hcount : ∀ l : List batchValue,
      (l.map batchValue.treeCall).count TreeCall.commit = 0 :=
    fun l => List.count_eq_zero.mpr (commit_not_mem_treeCalls l)
  constructor
  · intro h
    rw [Write_of_allOk b w h]
    refine ⟨rfl, ?_, rfl, rfl⟩
    simp [List.count_append, hcount]
  · intro h
    obtain ⟨k, e, hlt, hk⟩ := tree_first_fail b.tree b.data w.state h
    have hloop := writeLoop_fail b.tree b.data w k e hlt hk
    have hW : b.Write w =
        (b, { state := b.tree.applyAll w.state (b.data.take (k + 1)),
              calls := w.calls ++ (b.data.take (k + 1)).map batchValue.treeCall }, some e) := by
      simp [Batch.Write, hloop]
    rw [hW]
    refine ⟨⟨min (k + 1) b.data.length, Nat.min_le_right _ _, ?_⟩, ?_, by simp⟩
    · simp [List.take_take, List.take_eq_take, Nat.min_assoc]
    · show List.count TreeCall.commit
          (w.calls ++ (b.data.take (k + 1)).map batchValue.treeCall) = _
      rw [List.count_append, hcount, Nat.add_zero]

theorem Write_commit_once_witness :
    (goodBatch.tree.allOk emptyWorld.state goodBatch.data = true ∧
      (goodBatch.Write emptyWorld).2.1.calls =
        emptyWorld.calls ++ goodBatch.data.map batchValue.treeCall ++ [TreeCall.commit] ∧
      (goodBatch.Write emptyWorld).2.1.calls.count TreeCall.commit =
        emptyWorld.calls.count TreeCall.commit + 1 ∧
      (goodBatch.Write emptyWorld).2.2 =
        (goodBatch.tree.persistence.Commit
          (goodBatch.tree.applyAll emptyWorld.state goodBatch.data)).2 ∧
      (goodBatch.Write emptyWorld).2.1.state =
        (goodBatch.tree.persistence.Commit
          (goodBatch.tree.applyAll emptyWorld.state goodBatch.data)).1) ∧
    (badBatch.tree.allOk emptyWorld.state badBatch.data = false ∧
      (∃ n, n ≤ badBatch.data.length ∧
        (badBatch.Write emptyWorld).2.1.calls =
          emptyWorld.calls ++ (badBatch.data.take n).map batchValue.treeCall) ∧
      (badBatch.Write emptyWorld).2.1.calls.count TreeCall.commit =
        emptyWorld.calls.count TreeCall.commit ∧
      (badBatch.Write emptyWorld).2.2 ≠ none) :=
  ⟨⟨by decide, (Write_commit_once goodBatch emptyWorld).1 (by decide)⟩,
   ⟨by decide, (Write_commit_once badBatch emptyWorld).2 (by decide)⟩⟩

/-! ## C4 -/

theorem Write_fst (b : Batch σ ε) (w : World σ) : (b.Write w).1 = b := by
  simp only [Batch.Write]
  cases (Batch.writeLoop b.tree b.data w).2 <;> rfl

theorem sys_run_snoc (s : Sys σ ε ω) (ops : List (Op ω ε)) (o : Op ω ε) :
    s.run (ops ++ [o]) = ((s.run ops).step o).1 := by
  simp [Sys.run, List.foldl_append]

theorem putDeleteSinceReset_snoc (ops : List (Op ω ε)) (o : Op ω ε) :
    putDeleteSinceReset (ops ++ [o]) =
      if o.isReset then 0
      else putDeleteSinceReset ops + (if o.isPutOrDelete then 1 else 0) := by
  unfold putDeleteSinceReset
  cases h : o.isReset <;> simp [List.takeWhile_cons, h, List.countP_cons]

/-- C4: buffer accounting. After any sequence of method calls on a batch made
by `NewBatch`, `ValueSize()` is the number of `Put` and `Delete` calls made
since the most recent `Reset` (since construction when there is none), each
call counted whatever its key; a fresh batch has `ValueSize` 0. -/
theorem ValueSize_accounting (t : Tree σ ε) (w : World σ) (k : Sink ω) (ops : List (Op ω ε)) :
    ((Sys.fresh t w k).run ops).batch.ValueSize = putDeleteSinceReset ops ∧
    (((Sys.fresh t w k).run ops).step Op.ValueSize).2 = Ret.int (putDeleteSinceReset ops) ∧
    (NewBatch t).ValueSize = 0 := by
  have key : ((Sys.fresh t w k).run ops).batch.ValueSize = putDeleteSinceReset ops := by
    induction ops using List.reverseRecOn with
    | nil => rfl
    | append_singleton ops o ih =>
      rw [sys_run_snoc, putDeleteSinceReset_snoc]
      cases o <;>
        simp [Sys.step, Op.isReset, Op.isPutOrDelete, Batch.Put, Batch.Delete, Batch.Reset,
          Batch.Replay, Batch.ValueSize, Write_fst] <;>
        simpa [Batch.ValueSize] using ih
  refine ⟨key, ?_, rfl⟩
  simp [Sys.step, key]

theorem ValueSize_accounting_witness :
    putDeleteSinceReset mixedOps = 3 ∧
    ((Sys.fresh KV.tree emptyWorld emptySink).run mixedOps).batch.ValueSize = 3 :=
  ⟨by decide,
   (ValueSize_accounting KV.tree emptyWorld emptySink mixedOps).1.trans (by decide)⟩

/-! ## The replay loop -/

theorem writer_errAt_zero (wr : KeyValueWriter ω ε) (s : ω) (d : batchValue)
    (ds : List batchValue) : wr.errAt s (d :: ds) 0 = (wr.apply s d).2 := by
  simp [KeyValueWriter.errAt, KeyValueWriter.applyAll]

theorem writer_errAt_succ (wr : KeyValueWriter ω ε) (s : ω) (d : batchValue)
    (ds : List batchValue) (i : Nat) :
    wr.errAt s (d :: ds) (i + 1) = wr.errAt (wr.apply s d).1 ds i := by
  simp [KeyValueWriter.errAt, KeyValueWriter.applyAll]

/-- One iteration of the loop of `Replay`. -/
theorem replayLoop_cons (wr : KeyValueWriter ω ε) (d : batchValue) (ds : List batchValue)
    (s : Sink ω) :
    Batch.replayLoop wr (d :: ds) s =
      match (wr.apply s.state d).2 with
      | some err =>
        ({ state := (wr.apply s.state d).1, calls := s.calls ++ [d.writerCall] }, some err)
      | none =>
        Batch.replayLoop wr ds
          { state := (wr.apply s.state d).1, calls := s.calls ++ [d.writerCall] } := by
  cases hd : d.delete <;>
    simp [Batch.replayLoop, KeyValueWriter.apply, KeyValueWriter.callDelete,
      KeyValueWriter.callPut, batchValue.writerCall, hd]

/-- The loop of `Replay` when the call of entry `k` is the first to fail. -/
theorem replayLoop_fail (wr : KeyValueWriter ω ε) :
    ∀ (ds : List batchValue) (s : Sink ω) (k : Nat) (e : ε),
      (∀ i, i < k → wr.errAt s.state ds i = none) →
      wr.errAt s.state ds k = some e →
      Batch.replayLoop wr ds s =
        ({ state := wr.applyAll s.state (ds.take (k + 1)),
           calls := s.calls ++ (ds.take (k + 1)).map batchValue.writerCall }, some e)
  | [], _, k, e, _, hk => by simp [KeyValueWriter.errAt] at hk
  | d :: ds, s, 0, e, _, hk => by
    rw [writer_errAt_zero] at hk
    rw [replayLoop_cons, hk]
    simp [KeyValueWriter.applyAll]
  | d :: ds, s, k + 1, e, hlt, hk => by
    have h0 : (wr.apply s.state d).2 = none := by
      have := hlt 0 (Nat.succ_pos k)
      rwa [writer_errAt_zero] at this
    rw [writer_errAt_succ] at hk
    rw [replayLoop_cons, h0]
    have ih := replayLoop_fail wr ds
      { state := (wr.apply s.state d).1, calls := s.calls ++ [d.writerCall] } k e
      (fun i hi => by
        have := hlt (i + 1) (Nat.succ_lt_succ hi)
        rwa [writer_errAt_succ] at this)
      hk
    simp only [ih]
    simp [KeyValueWriter.applyAll]

/-- The loop of `Replay` when no call fails. -/
theorem replayLoop_ok (wr : KeyValueWriter ω ε) :
    ∀ (ds : List batchValue) (s : Sink ω),
      (∀ i, i < ds.length → wr.errAt s.state ds i = none) →
      Batch.replayLoop wr ds s =
        ({ state := wr.applyAll s.state ds,
           calls := s.calls ++ ds.map batchValue.writerCall }, none)
  | [], s, _ => by simp [Batch.replayLoop, KeyValueWriter.applyAll]
  | d :: ds, s, hlt => by
    have h0 : (wr.apply s.state d).2 = none := by
      have := hlt 0 (by simp)
      rwa [writer_errAt_zero] at this
    rw [replayLoop_cons, h0]
    have ih := replayLoop_ok wr ds
      { state := (wr.apply s.state d).1, calls := s.calls ++ [d.writerCall] }
      (fun i hi => by
        have := hlt (i + 1) (by simpa using hi)
        rwa [writer_errAt_succ] at this)
    simp only [ih]
    simp [KeyValueWriter.applyAll]

theorem writer_errAt_of_never_fails (wr : KeyValueWriter ω ε)
    (hput : ∀ st key value, (wr.Put st key value).2 = none)
    (hdel : ∀ st key, (wr.Delete st key).2 = none)
    (s : ω) (ds : List batchValue) (i : Nat) : wr.errAt s ds i = none := by
  unfold KeyValueWriter.errAt
  split
  · unfold KeyValueWriter.apply
    split
    · exact hdel _ _
    · exact hput _ _ _
  · rfl

theorem mutation_entry_writerCall (m : Mutation) : m.entry.writerCall = m.writerCall := by
  cases m <;> simp [batchValue.writerCall, Mutation.entry, Mutation.writerCall]

/-! ## C5 -/

/-- A part of the writer state that no call of the writer changes is the same
after all the calls. -/
theorem writer_applyAll_frame {τ α ε : Type} (wr : KeyValueWriter τ ε) (f : τ → α)
    (hput : ∀ st key value, f (wr.Put st key value).1 = f st)
    (hdel : ∀ st key, f (wr.Delete st key).1 = f st) :
    ∀ (ds : List batchValue) (st : τ), f (wr.applyAll st ds) = f st
  | [], _ => rfl
  | d :: ds, st => by
    have h1 : f (wr.apply st d).1 = f st := by
      unfold KeyValueWriter.apply
      split
      · exact hdel _ _
      · exact hput _ _ _
    have h2 := writer_applyAll_frame wr f hput hdel ds (wr.apply st d).1
    simp only [KeyValueWriter.applyAll, List.foldl_cons] at h2 ⊢
    rw [h2, h1]

/-- For a writer that is an object of its own, the loop of `Replay` on the
heap is the loop on the state of the writer, the rest of the heap untouched. -/
theorem replayLoop_onHeap {σ : Type} (wr : KeyValueWriter ω ε) :
    ∀ (ds d : List batchValue) (w : World σ) (s : Sink ω),
      Batch.replayLoop wr.onHeap ds
          { state := { data := d, world := w, own := s.state }, calls := s.calls } =
        ({ state := { data := d, world := w, own := (Batch.replayLoop wr ds s).1.state },
           calls := (Batch.replayLoop wr ds s).1.calls }, (Batch.replayLoop wr ds s).2)
  | [], _, _, _ => rfl
  | e :: ds, d, w, s => by
    have happ : ∀ h : Heap σ ω, (wr.onHeap).apply h e =
        ({ h with own := (wr.apply h.own e).1 }, (wr.apply h.own e).2) := by
      intro h
      cases hd : e.delete <;> simp [KeyValueWriter.apply, KeyValueWriter.onHeap, hd]
    rw [replayLoop_cons, replayLoop_cons, happ]
    cases hres : (wr.apply s.state e).2 with
    | some err => simp
    | none =>
      simp only
      exact replayLoop_onHeap wr ds d w
        { state := (wr.apply s.state e).1, calls := s.calls ++ [e.writerCall] }

/-- For a writer that is an object of its own, `Replay` on the heap is the
`Replay` step of the system. -/
theorem ReplayShared_onHeap (s : Sys σ ε ω) (wr : KeyValueWriter ω ε) :
    (s.ReplayShared wr.onHeap).1 = (s.step (Op.Replay wr)).1 ∧
    Ret.error (s.ReplayShared wr.onHeap).2 = (s.step (Op.Replay wr)).2 := by
  have h := replayLoop_onHeap wr s.batch.data s.batch.data s.world s.sink
  simp [Sys.ReplayShared, Sys.heap, Sys.step, Batch.Replay, h]

/-- C5 as stated fails: the batch itself is a writer whose `Put` and `Delete`
never fail, and a `Replay` of the batch into itself returns nil after one
call per entry but leaves every entry buffered twice. -/
theorem Replay_into_itself_grows_buffer :
    (∀ (h : Heap KV Unit) key value,
      ((goodSys.batch.asWriter : KeyValueWriter (Heap KV Unit) Nat).Put h key value).2 = none) ∧
    (∀ (h : Heap KV Unit) key,
      ((goodSys.batch.asWriter : KeyValueWriter (Heap KV Unit) Nat).Delete h key).2 = none) ∧
    (goodSys.ReplayShared goodSys.batch.asWriter).2 = none ∧
    (goodSys.ReplayShared goodSys.batch.asWriter).1.sink.calls =
      goodSys.batch.data.map batchValue.writerCall ∧
    (goodSys.ReplayShared goodSys.batch.asWriter).1.batch.data =
      goodSys.batch.data ++ goodSys.batch.data ∧
    (goodSys.ReplayShared goodSys.batch.asWriter).1.batch.data ≠ goodSys.batch.data ∧
    goodSys.batch.ValueSize = 2 ∧
    (goodSys.ReplayShared goodSys.batch.asWriter).1.batch.ValueSize = 4 :=
  ⟨fun _ _ _ => rfl, fun _ _ => rfl, by decide, by decide, by decide, by decide, by decide,
    by decide⟩

/-- C5, amended: replay fidelity. For a writer whose `Put` and `Delete` never
fail and a batch holding its earlier entries followed by the entries of the
calls `ms`, `Replay` returns nil and the writer receives one call per
buffered entry in insertion order, `Delete(key)` for a `Delete` call and
`Put(key, value)` for a `Put` call. `Replay` itself makes no call on the tree
or the backend and assigns nothing: what the writer can reach is, after the
`Replay`, what the calls of the writer made of it. So the buffer is unchanged
when no call of the writer changes the buffer, and the tree and backend are
unchanged when no call of the writer changes them. -/
theorem Replay_fidelity (s : Sys σ ε ω) (ms : List Mutation)
    (wr : KeyValueWriter (Heap σ ω) ε)
    (hput : ∀ h key value, (wr.Put h key value).2 = none)
    (hdel : ∀ h key, (wr.Delete h key).2 = none) :
    ((s.run (ms.map Mutation.op)).ReplayShared wr).2 = none ∧
    ((s.run (ms.map Mutation.op)).ReplayShared wr).1.sink.calls =
      s.sink.calls ++ s.batch.data.map batchValue.writerCall ++ ms.map Mutation.writerCall ∧
    ((s.run (ms.map Mutation.op)).ReplayShared wr).1.heap =
      wr.applyAll (s.run (ms.map Mutation.op)).heap (s.run (ms.map Mutation.op)).batch.data ∧
    ((s.run (ms.map Mutation.op)).ReplayShared wr).1.batch.tree = s.batch.tree ∧
    ((∀ h key value, (wr.Put h key value).1.data = h.data) →
      (∀ h key, (wr.Delete h key).1.data = h.data) →
      ((s.run (ms.map Mutation.op)).ReplayShared wr).1.batch.data =
        (s.run (ms.map Mutation.op)).batch.data) ∧
    ((∀ h key value, (wr.Put h key value).1.world = h.world) →
      (∀ h key, (wr.Delete h key).1.world = h.world) →
      ((s.run (ms.map Mutation.op)).ReplayShared wr).1.world =
        (s.run (ms.map Mutation.op)).world) := by
  have hcalls : ∀ l : List Mutation,
      List.map batchValue.writerCall (List.map Mutation.entry l) =
        List.map Mutation.writerCall l := by
    intro l
    simp [List.map_map, Function.comp_def, mutation_entry_writerCall]
  have hloop : ∀ t : Sys σ ε ω,
      Batch.replayLoop wr t.batch.data { state := t.heap, calls := t.sink.calls } =
        ({ state := wr.applyAll t.heap t.batch.data,
           calls := t.sink.calls ++ t.batch.data.map batchValue.writerCall }, none) :=
    fun t => replayLoop_ok wr t.batch.data { state := t.heap, calls := t.sink.calls }
      (fun i _ => writer_errAt_of_never_fails wr hput hdel _ _ i)
  have hdata : (s.run (ms.map Mutation.op)).batch.data =
      s.batch.data ++ ms.map Mutation.entry := by
    rw [sys_run_mutations]
  have hsink : (s.run (ms.map Mutation.op)).sink = s.sink := by
    rw [sys_run_mutations]
  have htree : (s.run (ms.map Mutation.op)).batch.tree = s.batch.tree := by
    rw [sys_run_mutations]
  have hR : ∀ t : Sys σ ε ω, t.ReplayShared wr =
      ({ batch := { t.batch with data := (wr.applyAll t.heap t.batch.data).data },
         world := (wr.applyAll t.heap t.batch.data).world,
         sink := { state := (wr.applyAll t.heap t.batch.data).own,
                   calls := t.sink.calls ++ t.batch.data.map batchValue.writerCall } },
       none) := by
    intro t
    simp only [Sys.ReplayShared, hloop t]
  refine ⟨?_, ?_, ?_, ?_, fun h1 h2 => ?_, fun h1 h2 => ?_⟩
  · rw [hR]
  · rw [hR]
    simp only [hsink, hdata, List.map_append, hcalls, List.append_assoc]
  · rw [hR]
    rfl
  · rw [hR]
    exact htree
  · rw [hR]
    exact writer_applyAll_frame wr Heap.data h1 h2 _ _
  · rw [hR]
    exact writer_applyAll_frame wr Heap.world h1 h2 _ _

theorem Replay_fidelity_witness :
    (∀ (h : Heap KV Unit) key value, ((nullWriter.onHeap).Put h key value).2 = none) ∧
    (∀ (h : Heap KV Unit) key, ((nullWriter.onHeap).Delete h key).2 = none) ∧
    ((goodSys.run (goodMutations.map Mutation.op)).ReplayShared nullWriter.onHeap).2 = none ∧
    ((goodSys.run (goodMutations.map Mutation.op)).ReplayShared nullWriter.onHeap).1.sink.calls =
      goodSys.sink.calls ++ goodSys.batch.data.map batchValue.writerCall ++
        goodMutations.map Mutation.writerCall ∧
    ((goodSys.run (goodMutations.map Mutation.op)).ReplayShared nullWriter.onHeap).1.batch.data =
      (goodSys.run (goodMutations.map Mutation.op)).batch.data ∧
    ((goodSys.run (goodMutations.map Mutation.op)).ReplayShared nullWriter.onHeap).1.world =
      (goodSys.run (goodMutations.map Mutation.op)).world :=
  ⟨fun _ _ _ => rfl, fun _ _ => rfl,
   (Replay_fidelity goodSys goodMutations nullWriter.onHeap (fun _ _ _ => rfl)
      (fun _ _ => rfl)).1,
   (Replay_fidelity goodSys goodMutations nullWriter.onHeap (fun _ _ _ => rfl)
      (fun _ _ => rfl)).2.1,
   (Replay_fidelity goodSys goodMutations nullWriter.onHeap (fun _ _ _ => rfl)
      (fun _ _ => rfl)).2.2.2.2.1 (fun _ _ _ => rfl) (fun _ _ => rfl),
   (Replay_fidelity goodSys goodMutations nullWriter.onHeap (fun _ _ _ => rfl)
      (fun _ _ => rfl)).2.2.2.2.2 (fun _ _ _ => rfl) (fun _ _ => rfl)⟩

/-! ## C6 -/

/-- C6: `Replay` is fail-fast. If the writer call of entry `k` is the first to
return an error `e`, `Replay` returns exactly `e` and the writer has received
the calls of entries `0..k` in order and nothing after; if no call fails,
`Replay` returns nil after one call per entry. The buffer is unchanged. -/
theorem Replay_fail_fast (b : Batch σ ε) (wr : KeyValueWriter ω ε) (s : Sink ω) :
    (∀ k e, (∀ i, i < k → wr.errAt s.state b.data i = none) →
      wr.errAt s.state b.data k = some e →
        (b.Replay wr s).2.2 = some e ∧
        (b.Replay wr s).2.1.calls =
          s.calls ++ (b.data.take (k + 1)).map batchValue.writerCall ∧
        ((b.data.take (k + 1)).map batchValue.writerCall).length = k + 1 ∧
        (b.Replay wr s).2.1.state = wr.applyAll s.state (b.data.take (k + 1))) ∧
    ((∀ i, i < b.data.length → wr.errAt s.state b.data i = none) →
        (b.Replay wr s).2.2 = none ∧
        (b.Replay wr s).2.1.calls = s.calls ++ b.data.map batchValue.writerCall ∧
        (b.Replay wr s).2.1.state = wr.applyAll s.state b.data) ∧
    (b.Replay wr s).1.data = b.data := by
  refine ⟨fun k e hok hfail => ?_, fun hall => ?_, rfl⟩
  · have hloop := replayLoop_fail wr b.data s k e hok hfail
    have hk : k < b.data.length := by
      by_contra hge
      have : b.data[k]? = none := List.getElem?_eq_none (Nat.le_of_not_lt hge)
      simp [KeyValueWriter.errAt, this] at hfail
    refine ⟨?_, ?_, ?_, ?_⟩
    · simp [Batch.Replay, hloop]
    · simp [Batch.Replay, hloop]
    · simp [List.length_take]; omega
    · simp [Batch.Replay, hloop]
  · have hloop := replayLoop_ok wr b.data s hall
    simp [Batch.Replay, hloop]

theorem Replay_fail_fast_witness :
    ((∀ i, i < 1 → listWriter.errAt emptySink.state badBatch.data i = none) ∧
      listWriter.errAt emptySink.state badBatch.data 1 = some 2 ∧
      ((badBatch.Replay listWriter emptySink).2.2 = some 2 ∧
        (badBatch.Replay listWriter emptySink).2.1.calls =
          emptySink.calls ++ (badBatch.data.take (1 + 1)).map batchValue.writerCall ∧
        ((badBatch.data.take (1 + 1)).map batchValue.writerCall).length = 1 + 1 ∧
        (badBatch.Replay listWriter emptySink).2.1.state =
          listWriter.applyAll emptySink.state (badBatch.data.take (1 + 1)))) ∧
    ((∀ i, i < goodBatch.data.length →
        listWriter.errAt emptySink.state goodBatch.data i = none) ∧
      ((goodBatch.Replay listWriter emptySink).2.2 = none ∧
        (goodBatch.Replay listWriter emptySink).2.1.calls =
          emptySink.calls ++ goodBatch.data.map batchValue.writerCall ∧
        (goodBatch.Replay listWriter emptySink).2.1.state =
          listWriter.applyAll emptySink.state goodBatch.data)) :=
  ⟨⟨by decide, by decide,
      (Replay_fail_fast badBatch listWriter emptySink).1 1 2 (by decide) (by decide)⟩,
   ⟨by decide, (Replay_fail_fast goodBatch listWriter emptySink).2.1 (by decide)⟩⟩

/-! ## C7 -/

/-- C7: `Write` leaves the buffer as it was, whatever its outcome: the batch
after `Write` is the batch before it, so `ValueSize()` is unchanged and a
`Replay` after the `Write` makes the same calls and returns the same result
as a `Replay` before it. -/
theorem Write_keeps_buffer (s : Sys σ ε ω) :
    (s.step Op.Write).1.batch = s.batch ∧
    (s.step Op.Write).1.batch.data = s.batch.data ∧
    (s.step Op.Write).1.batch.ValueSize = s.batch.ValueSize ∧
    (s.step Op.Write).1.sink = s.sink ∧
    ∀ wr : KeyValueWriter ω ε,
      ((s.step Op.Write).1.step (Op.Replay wr)).1.sink = (s.step (Op.Replay wr)).1.sink ∧
      ((s.step Op.Write).1.step (Op.Replay wr)).2 = (s.step (Op.Replay wr)).2 := by
  have hb : (s.step Op.Write).1.batch = s.batch := by
    simp [Sys.step, Write_fst]
  have hs : (s.step Op.Write).1.sink = s.sink := rfl
  refine ⟨hb, by rw [hb], by rw [hb], hs, fun wr => ?_⟩
  simp [Sys.step, Write_fst]

/-! ## C8 -/

/-- C8 as stated fails: after a `Write` that stopped at a failing entry, a
`Reset` followed by a `Write` of the empty buffer still issues `Commit`, which
makes the mutation left in the trie durable: the backend state changes. -/
theorem Reset_then_Write_changes_backend :
    (stuckSys.step Op.Reset).1.batch.data = [] ∧
    (stuckSys.step Op.Reset).1.world.state.durable = [] ∧
    ((stuckSys.step Op.Reset).1.step Op.Write).1.world.state.durable = [([1], [10])] ∧
    ((stuckSys.step Op.Reset).1.step Op.Write).1.world.state ≠
      (stuckSys.step Op.Reset).1.world.state := by
  decide

/-- C8, amended: `Reset` empties the buffer and makes no call on the tree or
the backend. A `Write` right after it issues no `put` and no `del`; it issues
exactly one `Commit` and returns its result, so the state after that `Write`
is the state `Commit` leaves, and every observation of the state that
`Commit` does not alter is unchanged. -/
theorem Reset_then_Write (s : Sys σ ε ω) :
    (s.step Op.Reset).1.world = s.world ∧
    (s.step Op.Reset).1.sink = s.sink ∧
    (s.step Op.Reset).1.batch.data = [] ∧
    ((s.step Op.Reset).1.step Op.Write).1.world.calls = s.world.calls ++ [TreeCall.commit] ∧
    ((s.step Op.Reset).1.step Op.Write).1.world.state =
      (s.batch.tree.persistence.Commit s.world.state).1 ∧
    ((s.step Op.Reset).1.step Op.Write).2 =
      Ret.error (s.batch.tree.persistence.Commit s.world.state).2 ∧
    ∀ (α : Type) (obs : σ → α),
      (∀ st, obs (s.batch.tree.persistence.Commit st).1 = obs st) →
      obs ((s.step Op.Reset).1.step Op.Write).1.world.state = obs s.world.state := by
  refine ⟨rfl, rfl, rfl, ?_, ?_, ?_, fun α obs hobs => ?_⟩ <;>
    simp [Sys.step, Batch.Reset, Batch.Write, Batch.writeLoop, Tree.callCommit]
  exact hobs _

theorem Reset_then_Write_witness :
    (∀ st, KV.mem (goodSys.batch.tree.persistence.Commit st).1 = KV.mem st) ∧
    KV.mem ((goodSys.step Op.Reset).1.step Op.Write).1.world.state =
      KV.mem goodSys.world.state :=
  ⟨fun _ => rfl, (Reset_then_Write goodSys).2.2.2.2.2.2 _ KV.mem (fun _ => rfl)⟩

/-! ## C9 -/

/-- C9: `Put` and `Delete` return nil and append exactly one entry at the end
of the buffer, `{key, value, delete = false}` for `Put` and
`{key, nil, delete = true}` for `Delete`; the earlier entries keep their
positions and contents, the bound tree is the same, and no call is made on
the tree, the backend or the replay target. -/
theorem Put_Delete_append (s : Sys σ ε ω) (key value : ByteSlice) :
    ((s.step (Op.Put key value)).2 = Ret.error none ∧
     (s.step (Op.Put key value)).1.batch.data =
       s.batch.data ++ [{ key := key, value := value, delete := false }] ∧
     (s.step (Op.Put key value)).1.batch.data.take s.batch.data.length = s.batch.data ∧
     (s.step (Op.Put key value)).1.batch.data.length = s.batch.data.length + 1 ∧
     (s.step (Op.Put key value)).1.batch.tree = s.batch.tree ∧
     (s.step (Op.Put key value)).1.world = s.world ∧
     (s.step (Op.Put key value)).1.sink = s.sink) ∧
    ((s.step (Op.Delete key)).2 = Ret.error none ∧
     (s.step (Op.Delete key)).1.batch.data =
       s.batch.data ++ [{ key := key, value := none, delete := true }] ∧
     (s.step (Op.Delete key)).1.batch.data.take s.batch.data.length = s.batch.data ∧
     (s.step (Op.Delete key)).1.batch.data.length = s.batch.data.length + 1 ∧
     (s.step (Op.Delete key)).1.batch.tree = s.batch.tree ∧
     (s.step (Op.Delete key)).1.world = s.world ∧
     (s.step (Op.Delete key)).1.sink = s.sink) := by
  refine ⟨⟨rfl, rfl, ?_, ?_, rfl, rfl, rfl⟩, ⟨rfl, rfl, ?_, ?_, rfl, rfl, rfl⟩⟩ <;>
    simp [Sys.step, Batch.Put, Batch.Delete]

/-! ## C10 -/

/-- C10: `Inner` returns the batch itself, with the same buffer and the same
bound tree, and the call changes nothing. -/
theorem Inner_self (s : Sys σ ε ω) :
    s.batch.Inner = s.batch ∧
    (s.step Op.Inner).2 = Ret.batch s.batch ∧
    s.batch.Inner.data = s.batch.data ∧
    s.batch.Inner.tree = s.batch.tree ∧
    (s.step Op.Inner).1 = s :=
  ⟨rfl, rfl, rfl, rfl, rfl⟩

end merkledb

namespace avm

variable {Ctx Codec ID BaseTx : Type}

/-! ## The character loops -/

theorem nameLoop_eq_none_iff (rs : List Nat) :
    nameLoop rs = none ↔
      ∀ r ∈ rs, r ≤ MaxASCII ∧ (IsLetter r = true ∨ IsNumber r = true ∨ r = 0x20) := by
  induction rs with
  | nil => simp [nameLoop]
  | cons r rs ih =>
    by_cases hbad : (r > MaxASCII || !(IsLetter r || IsNumber r || r = 0x20)) = true
    · have hb := hbad
      simp only [Bool.or_eq_true, decide_eq_true_eq, Bool.not_eq_true', Bool.or_eq_false_iff,
        decide_eq_false_iff_not] at hb
      simp only [nameLoop, hbad, if_true, List.mem_cons, forall_eq_or_imp]
      constructor
      · intro h; cases h
      · rintro ⟨⟨hle, hok⟩, _⟩
        exfalso
        rcases hb with hgt | ⟨⟨hl, hn⟩, hs⟩
        · omega
        · rcases hok with h | h | h
          · rw [h] at hl; cases hl
          · rw [h] at hn; cases hn
          · exact hs h
    · have hb := hbad
      simp only [Bool.or_eq_true, decide_eq_true_eq, Bool.not_eq_true', Bool.or_eq_false_iff,
        decide_eq_false_iff_not, not_or, not_lt, not_and, Bool.not_eq_false] at hb
      simp only [nameLoop, hbad, List.mem_cons, forall_eq_or_imp, ih]
      simp only [Bool.false_eq_true, if_false, ih]
      constructor
      · intro h
        refine ⟨⟨by have := hb.1; omega, ?_⟩, h⟩
        by_cases hl : IsLetter r = true
        · exact Or.inl hl
        · by_cases hn : IsNumber r = true
          · exact Or.inr (Or.inl hn)
          · exact Or.inr (Or.inr (by
              have := hb.2 ⟨by simpa using hl, by simpa using hn⟩
              simpa using this))
      · exact fun h => h.2

theorem nameLoop_error (rs : List Nat) (e : Error) (h : nameLoop rs = some e) :
    e = Error.errIllegalNameCharacter := by
  induction rs with
  | nil => simp [nameLoop] at h
  | cons r rs ih =>
    simp only [nameLoop] at h
    split at h
    · exact (Option.some.inj h).symm
    · exact ih h

theorem symbolLoop_eq_none_iff (rs : List Nat) :
    symbolLoop rs = none ↔ ∀ r ∈ rs, r ≤ MaxASCII ∧ IsUpper r = true := by
  induction rs with
  | nil => simp [symbolLoop]
  | cons r rs ih =>
    by_cases hbad : (r > MaxASCII || !IsUpper r) = true
    · have hb := hbad
      simp only [Bool.or_eq_true, decide_eq_true_eq, Bool.not_eq_true'] at hb
      simp only [symbolLoop, hbad, if_true, List.mem_cons, forall_eq_or_imp]
      constructor
      · intro h; cases h
      · rintro ⟨⟨hle, hok⟩, _⟩
        exfalso
        rcases hb with hgt | hu
        · omega
        · rw [hok] at hu; cases hu
    · have hb := hbad
      simp only [Bool.or_eq_true, decide_eq_true_eq, Bool.not_eq_true', not_or, not_lt,
        Bool.not_eq_false] at hb
      simp only [symbolLoop, hbad, List.mem_cons, forall_eq_or_imp]
      simp only [Bool.false_eq_true, if_false, ih]
      constructor
      · intro h
        exact ⟨⟨by have := hb.1; omega, hb.2⟩, h⟩
      · exact fun h => h.2

theorem symbolLoop_error (rs : List Nat) (e : Error) (h : symbolLoop rs = some e) :
    e = Error.errIllegalSymbolCharacter := by
  induction rs with
  | nil => simp [symbolLoop] at h
  | cons r rs ih =>
    simp only [symbolLoop] at h
    split at h
    · exact (Option.some.inj h).symm
    · exact ih h

theorem IsLetter_iff (r : Nat) :
    IsLetter r = true ↔ (0x41 ≤ r ∧ r ≤ 0x5A) ∨ (0x61 ≤ r ∧ r ≤ 0x7A) := by
  simp [IsLetter]

theorem IsNumber_iff (r : Nat) : IsNumber r = true ↔ 0x30 ≤ r ∧ r ≤ 0x39 := by
  simp [IsNumber]

theorem IsUpper_iff (r : Nat) : IsUpper r = true ↔ 0x41 ≤ r ∧ r ≤ 0x5A := by
  simp [IsUpper]


/-! ## The structure of `SyntacticVerify` -/

/-- When the earlier checks pass, the result is decided by the search for
manager outputs and the codec check. -/
theorem SyntacticVerify_of_passes (x : Externals Ctx Codec ID BaseTx) (t : CreateAssetTx BaseTx)
    (ctx : Ctx) (c : Codec) (codecVersion : Nat) (txFeeAssetID : ID) (u txFee : Nat)
    (numFxs : Int)
    (h : PassesEarlierChecks x t ctx c codecVersion txFeeAssetID txFee numFxs) :
    CreateAssetTx.SyntacticVerify x (some t) ctx c codecVersion txFeeAssetID u txFee numFxs =
      match managerLoop t.States false with
      | Except.error err => some err
      | Except.ok hasManager =>
        if hasManager && codecVersion = x.preApricotCodecVersion then
          some Error.errCreateManagedAssetBadCodec
        else none := by
  obtain ⟨h1, h2, h3, h4, h5, h6⟩ := h
  simp [CreateAssetTx.SyntacticVerify, h1, h2, h3, h4, h5, h6]

/-- A transaction is accepted exactly when the earlier checks pass, the
search for manager outputs ends without error and the codec check passes. -/
theorem SyntacticVerify_eq_none_iff (x : Externals Ctx Codec ID BaseTx)
    (t : CreateAssetTx BaseTx) (ctx : Ctx) (c : Codec) (codecVersion : Nat)
    (txFeeAssetID : ID) (u txFee : Nat) (numFxs : Int) :
    CreateAssetTx.SyntacticVerify x (some t) ctx c codecVersion txFeeAssetID u txFee numFxs =
        none ↔
      PassesEarlierChecks x t ctx c codecVersion txFeeAssetID txFee numFxs ∧
      ∃ hasManager, managerLoop t.States false = Except.ok hasManager ∧
        ¬(hasManager = true ∧ codecVersion = x.preApricotCodecVersion) := by
  constructor
  · intro h
    have hs : PassesEarlierChecks x t ctx c codecVersion txFeeAssetID txFee numFxs := by
      unfold PassesEarlierChecks
      simp only [CreateAssetTx.SyntacticVerify] at h
      cases h1 : sizeSwitch t with
      | some e => simp [h1] at h
      | none =>
      cases h2 : nameLoop (runes t.Name) with
      | some e => simp [h1, h2] at h
      | none =>
      cases h3 : symbolLoop (runes t.Symbol) with
      | some e => simp [h1, h2, h3] at h
      | none =>
      cases h4 : x.BaseTxSyntacticVerify t.BaseTx ctx c codecVersion txFeeAssetID txFee txFee
          numFxs with
      | some e => simp [h1, h2, h3, h4] at h
      | none =>
      cases h5 : statesLoop x c codecVersion numFxs t.States with
      | some e => simp [h1, h2, h3, h4, h5] at h
      | none =>
      cases h6 : x.isSortedAndUniqueInitialStates t.States with
      | false => simp [h1, h2, h3, h4, h5, h6] at h
      | true => exact ⟨rfl, rfl, rfl, rfl, rfl, rfl⟩
    refine ⟨hs, ?_⟩
    rw [SyntacticVerify_of_passes x t ctx c codecVersion txFeeAssetID u txFee numFxs hs] at h
    cases hm : managerLoop t.States false with
    | error e => simp [hm] at h
    | ok b =>
      refine ⟨b, rfl, ?_⟩
      simp only [hm] at h
      intro hb
      simp [hb.1, hb.2] at h
  · rintro ⟨hs, b, hm, hb⟩
    rw [SyntacticVerify_of_passes x t ctx c codecVersion txFeeAssetID u txFee numFxs hs, hm]
    simp only
    split
    · rename_i hc
      simp only [Bool.and_eq_true, decide_eq_true_eq] at hc
      exact absurd hc hb
    · rfl

/-- The result of the head `switch` is the result of `SyntacticVerify`
whenever a case of the `switch` holds. -/
theorem SyntacticVerify_of_sizeSwitch (x : Externals Ctx Codec ID BaseTx)
    (t : CreateAssetTx BaseTx) (ctx : Ctx) (c : Codec) (codecVersion : Nat)
    (txFeeAssetID : ID) (u txFee : Nat) (numFxs : Int) (e : Error)
    (h : sizeSwitch t = some e) :
    CreateAssetTx.SyntacticVerify x (some t) ctx c codecVersion txFeeAssetID u txFee numFxs =
      some e := by
  simp [CreateAssetTx.SyntacticVerify, h]

/-! ## The search for manager outputs -/

theorem outsLoop_eq (outs : List Output) (b : Bool) :
    outsLoop outs b =
      if outs.countP Output.isManagedAssetStatusOutput + b.toNat ≤ 1 then
        Except.ok (decide (0 < outs.countP Output.isManagedAssetStatusOutput + b.toNat))
      else Except.error Error.errMultipleManagers := by
  induction outs generalizing b with
  | nil => cases b <;> simp [outsLoop]
  | cons out outs ih =>
    cases hout : out.isManagedAssetStatusOutput
    · simp only [outsLoop, hout, ih, List.countP_cons]
      simp
    · cases b
      · simp only [outsLoop, hout, ih, List.countP_cons]
        simp
      · simp only [outsLoop, hout, List.countP_cons]
        simp

theorem managerLoop_eq (states : List InitialState) (b : Bool) :
    managerLoop states b =
      if managerCountFx0 states + b.toNat ≤ 1 then
        Except.ok (decide (0 < managerCountFx0 states + b.toNat))
      else Except.error Error.errMultipleManagers := by
  induction states generalizing b with
  | nil => cases b <;> simp [managerLoop, managerCountFx0]
  | cons s rest ih =>
    by_cases hfx : s.FxID = 0
    · have hcount : managerCountFx0 (s :: rest) = s.managers + managerCountFx0 rest := by
        simp [managerCountFx0, hfx]
      simp only [managerLoop, hfx, ne_eq, not_true_eq_false, if_false, outsLoop_eq, hcount]
      have hm : s.Outs.countP Output.isManagedAssetStatusOutput = s.managers := rfl
      rw [hm]
      by_cases h1 : s.managers + b.toNat ≤ 1
      · have hnat : (decide (0 < s.managers + b.toNat)).toNat = s.managers + b.toNat := by
          rcases Nat.le_one_iff_eq_zero_or_eq_one.mp h1 with h0 | h0 <;> simp [h0]
        simp only [h1, if_true, ih, hnat]
        have hre : managerCountFx0 rest + (s.managers + b.toNat) =
            s.managers + managerCountFx0 rest + b.toNat := by omega
        rw [hre]
      · have h2 : ¬ s.managers + managerCountFx0 rest + b.toNat ≤ 1 := by omega
        simp [h1, h2]
    · have hcount : managerCountFx0 (s :: rest) = managerCountFx0 rest := by
        simp [managerCountFx0, hfx]
      simp [managerLoop, hfx, ih, hcount]


/-! ## Runes and white space -/

theorem DecodeRune_ascii (b : Fin 256) (rest : GoString) (h : b.val < 0x80) :
    DecodeRune (b :: rest) = (b.val, 1) := by
  simp [DecodeRune, h]

/-- A byte outside the ASCII range never starts an ASCII rune. -/
theorem DecodeRune_ge (b : Fin 256) (rest : GoString) (h : 0x80 ≤ b.val) :
    0x80 ≤ (DecodeRune (b :: rest)).1 := by
  have hb := b.isLt
  unfold DecodeRune
  simp only [RuneError, secondLo, secondHi, isCont]
  split_ifs <;> (try split) <;> (try split_ifs) <;>
    simp only [Bool.and_eq_true, decide_eq_true_eq] at * <;> omega

/-- Every decoding step of a non-empty string consumes at least one byte. -/
theorem DecodeRune_size_pos (b : Fin 256) (rest : GoString) :
    1 ≤ (DecodeRune (b :: rest)).2 := by
  simp only [DecodeRune]
  split_ifs <;> (try split) <;> (try split_ifs) <;> simp

theorem drop_DecodeRune (b : Fin 256) (rest : GoString) :
    (b :: rest).drop (DecodeRune (b :: rest)).2 =
      rest.drop ((DecodeRune (b :: rest)).2 - 1) := by
  have h := DecodeRune_size_pos b rest
  obtain ⟨k, hk⟩ : ∃ k, (DecodeRune (b :: rest)).2 = k + 1 := ⟨_, (Nat.sub_add_cancel h).symm⟩
  rw [hk]
  simp

/-- More fuel than the length of the string changes nothing. -/
theorem runesAux_fuel :
    ∀ (n m : Nat) (s : GoString), s.length ≤ n → s.length ≤ m → runesAux n s = runesAux m s
  | n, m, [], _, _ => by
    cases n <;> cases m <;> simp [runesAux]
  | 0, _, _ :: _, h, _ => by simp at h
  | _ + 1, 0, _ :: _, _, h => by simp at h
  | n + 1, m + 1, b :: rest, hn, hm => by
    simp only [runesAux]
    congr 1
    have hlen : (rest.drop ((DecodeRune (b :: rest)).2 - 1)).length ≤ rest.length := by
      simp
    simp only [List.length_cons] at hn hm
    exact runesAux_fuel n m _ (by omega) (by omega)

/-- A string whose runes are all ASCII is the string of those runes, one byte
each. -/
theorem runesAux_ascii :
    ∀ (n : Nat) (s : GoString), s.length ≤ n → (∀ r ∈ runesAux n s, r ≤ MaxASCII) →
      runesAux n s = s.map Fin.val
  | n, [], _, _ => by
    cases n <;> simp [runesAux]
  | 0, _ :: _, h, _ => by simp at h
  | n + 1, b :: rest, hn, hall => by
    have hb : b.val < 0x80 := by
      by_contra hge
      have h1 := DecodeRune_ge b rest (Nat.le_of_not_lt hge)
      have h2 := hall (DecodeRune (b :: rest)).1 (by simp [runesAux])
      simp only [MaxASCII] at h2
      omega
    have hd := DecodeRune_ascii b rest hb
    simp only [runesAux, hd, List.map_cons, Nat.sub_self, List.drop_zero] at hall ⊢
    congr 1
    exact runesAux_ascii n rest (by simpa using hn) (fun r hr => hall r (by simp [hr]))

theorem runes_ascii (s : GoString) (h : ∀ r ∈ runes s, r ≤ MaxASCII) :
    runes s = s.map Fin.val :=
  runesAux_ascii s.length s (Nat.le_refl _) h

theorem trimLeftAux_length_le :
    ∀ (n : Nat) (s : GoString), (trimLeftAux n s).length ≤ s.length
  | 0, s => by simp [trimLeftAux]
  | _ + 1, [] => by simp [trimLeftAux]
  | n + 1, b :: rest => by
    simp only [trimLeftAux]
    split
    · have h1 := trimLeftAux_length_le n (rest.drop ((DecodeRune (b :: rest)).2 - 1))
      have h2 : (rest.drop ((DecodeRune (b :: rest)).2 - 1)).length ≤ rest.length := by simp
      simp only [List.length_cons]
      omega
    · exact Nat.le_refl _

theorem trimRightAux_length_le :
    ∀ (n : Nat) (s : GoString), (trimRightAux n s).length ≤ s.length
  | 0, s => by simp [trimRightAux]
  | n + 1, s => by
    simp only [trimRightAux]
    split
    · exact Nat.le_refl _
    · split
      · have h1 := trimRightAux_length_le n (s.take (s.length - (DecodeLastRune s).2))
        have h2 : (s.take (s.length - (DecodeLastRune s).2)).length ≤ s.length := by simp
        omega
      · exact Nat.le_refl _

theorem DecodeLastRune_size_pos (s : GoString) (h : s ≠ []) : 1 ≤ (DecodeLastRune s).2 := by
  unfold DecodeLastRune
  have hr : s.reverse ≠ [] := by simpa using h
  cases hrev : s.reverse with
  | nil => exact absurd hrev hr
  | cons last before =>
    simp only
    split_ifs with h1
    · simp
    · split
      · simp
      · split_ifs with h2
        · rw [h2]; omega
        · simp

/-- `TrimSpace` changes a string exactly when the string begins or ends with
a white space rune. -/
theorem TrimSpace_ne_iff (s : GoString) :
    TrimSpace s ≠ s ↔ beginsWithSpace s ∨ endsWithSpace s := by
  cases s with
  | nil => simp [TrimSpace, trimLeftAux, trimRightAux, beginsWithSpace, endsWithSpace]
  | cons b rest =>
    by_cases hfirst : IsSpace (DecodeRune (b :: rest)).1 = true
    · constructor
      · intro _
        exact Or.inl ⟨by simp, hfirst⟩
      · intro _ heq
        have hL : trimLeftAux (b :: rest).length (b :: rest) =
            trimLeftAux rest.length (rest.drop ((DecodeRune (b :: rest)).2 - 1)) := by
          simp [trimLeftAux, hfirst]
        have h3 := trimLeftAux_length_le rest.length
          (rest.drop ((DecodeRune (b :: rest)).2 - 1))
        have h4 : (rest.drop ((DecodeRune (b :: rest)).2 - 1)).length ≤ rest.length := by simp
        have h1 := trimRightAux_length_le
          (trimLeftAux rest.length (rest.drop ((DecodeRune (b :: rest)).2 - 1))).length
          (trimLeftAux rest.length (rest.drop ((DecodeRune (b :: rest)).2 - 1)))
        have h5 : (TrimSpace (b :: rest)).length = rest.length + 1 := by rw [heq]; simp
        rw [TrimSpace, hL] at h5
        omega
    · have hleft : trimLeftAux (b :: rest).length (b :: rest) = b :: rest := by
        simp [trimLeftAux, hfirst]
      have hT : TrimSpace (b :: rest) =
          trimRightAux (b :: rest).length (b :: rest) := by
        simp only [TrimSpace, hleft]
      by_cases hlast : IsSpace (DecodeLastRune (b :: rest)).1 = true
      · constructor
        · intro _
          exact Or.inr ⟨by simp, hlast⟩
        · intro _ heq
          have hpos := DecodeLastRune_size_pos (b :: rest) (by simp)
          have hR : trimRightAux (b :: rest).length (b :: rest) =
              trimRightAux rest.length
                ((b :: rest).take ((b :: rest).length - (DecodeLastRune (b :: rest)).2)) := by
            simp [trimRightAux, hlast]
          have h1 := trimRightAux_length_le rest.length
            ((b :: rest).take ((b :: rest).length - (DecodeLastRune (b :: rest)).2))
          have h2 : ((b :: rest).take
              ((b :: rest).length - (DecodeLastRune (b :: rest)).2)).length
                ≤ (b :: rest).length - (DecodeLastRune (b :: rest)).2 := by
            rw [List.length_take]; exact Nat.min_le_left _ _
          have h5 : (TrimSpace (b :: rest)).length = (b :: rest).length := by rw [heq]
          rw [hT, hR] at h5
          have h6 : (b :: rest).length = rest.length + 1 := rfl
          omega
      · constructor
        · intro hne
          exfalso
          apply hne
          rw [hT]
          simp [trimRightAux, hlast]
        · rintro (⟨_, h⟩ | ⟨_, h⟩)
          · exact absurd h hfirst
          · exact absurd h hlast


/-! ## The head `switch` -/

theorem sizeSwitch_eq_none_iff (t : CreateAssetTx BaseTx) :
    sizeSwitch t = none ↔
      1 ≤ t.Name.length ∧ t.Name.length ≤ 128 ∧ 1 ≤ t.Symbol.length ∧ t.Symbol.length ≤ 4 ∧
      1 ≤ t.States.length ∧ t.Denomination.val ≤ 32 ∧ TrimSpace t.Name = t.Name := by
  unfold sizeSwitch minNameLen maxNameLen minSymbolLen maxSymbolLen maxDenomination
  constructor
  · intro h
    split_ifs at h with h1 h2 h3 h4 h5 h6 h7
    exact ⟨by omega, by omega, by omega, by omega, by omega, by omega, not_not.mp h7⟩
  · rintro ⟨h1, h2, h3, h4, h5, h6, h7⟩
    have g1 : ¬ t.Name.length < 1 := by omega
    have g2 : ¬ t.Name.length > 128 := by omega
    have g3 : ¬ t.Symbol.length < 1 := by omega
    have g4 : ¬ t.Symbol.length > 4 := by omega
    have g5 : ¬ t.States.length = 0 := by omega
    have g6 : ¬ t.Denomination.val > 32 := by omega
    rw [if_neg g1, if_neg g2, if_neg g3, if_neg g4, if_neg g5, if_neg g6,
      if_neg (not_not.mpr h7)]

/-! ## C11 -/

/-- C11 as stated fails: a name with a space between two words is accepted,
and the space is neither an ASCII letter nor an ASCII digit. -/
theorem name_with_space_accepted :
    CreateAssetTx.SyntacticVerify acceptAll (some spacedTx) () () 1 () 0 0 1 = none ∧
    0x20 ∈ runes spacedTx.Name ∧
    ¬ ∀ r ∈ runes spacedTx.Name,
        ((0x41 ≤ r ∧ r ≤ 0x5A) ∨ (0x61 ≤ r ∧ r ≤ 0x7A)) ∨ (0x30 ≤ r ∧ r ≤ 0x39) := by
  decide

/-- C11, amended: on every transaction that `SyntacticVerify` accepts, every
character of `Name` is an ASCII letter, an ASCII digit or a space; the name
is then its own list of characters, one byte each, and it neither begins nor
ends with white space. -/
theorem name_characters (x : Externals Ctx Codec ID BaseTx) (t : CreateAssetTx BaseTx)
    (ctx : Ctx) (c : Codec) (codecVersion : Nat) (txFeeAssetID : ID) (u txFee : Nat)
    (numFxs : Int)
    (h : CreateAssetTx.SyntacticVerify x (some t) ctx c codecVersion txFeeAssetID u txFee
      numFxs = none) :
    (∀ r ∈ runes t.Name,
      ((0x41 ≤ r ∧ r ≤ 0x5A) ∨ (0x61 ≤ r ∧ r ≤ 0x7A)) ∨ (0x30 ≤ r ∧ r ≤ 0x39) ∨ r = 0x20) ∧
    runes t.Name = t.Name.map Fin.val ∧
    ¬ beginsWithSpace t.Name ∧ ¬ endsWithSpace t.Name := by
  obtain ⟨⟨hsize, hname, _⟩, _⟩ :=
    (SyntacticVerify_eq_none_iff x t ctx c codecVersion txFeeAssetID u txFee numFxs).mp h
  have hall := (nameLoop_eq_none_iff _).mp hname
  have htrim : TrimSpace t.Name = t.Name := ((sizeSwitch_eq_none_iff t).mp hsize).2.2.2.2.2.2
  have hns : ¬ (beginsWithSpace t.Name ∨ endsWithSpace t.Name) := fun hor =>
    (TrimSpace_ne_iff t.Name).mpr hor htrim
  refine ⟨fun r hr => ?_, runes_ascii _ (fun r hr => (hall r hr).1),
    fun hb => hns (Or.inl hb), fun he => hns (Or.inr he)⟩
  rcases (hall r hr).2 with hl | hn | hs
  · exact Or.inl ((IsLetter_iff r).mp hl)
  · exact Or.inr (Or.inl ((IsNumber_iff r).mp hn))
  · exact Or.inr (Or.inr hs)

theorem name_characters_witness :
    CreateAssetTx.SyntacticVerify acceptAll (some spacedTx) () () 1 () 0 0 1 = none ∧
    ((∀ r ∈ runes spacedTx.Name,
      ((0x41 ≤ r ∧ r ≤ 0x5A) ∨ (0x61 ≤ r ∧ r ≤ 0x7A)) ∨ (0x30 ≤ r ∧ r ≤ 0x39) ∨ r = 0x20) ∧
    runes spacedTx.Name = spacedTx.Name.map Fin.val ∧
    ¬ beginsWithSpace spacedTx.Name ∧ ¬ endsWithSpace spacedTx.Name) :=
  ⟨by decide, name_characters acceptAll spacedTx () () 1 () 0 0 1 (by decide)⟩

/-! ## C12 -/

/-- C12: the code at the failing input. A transaction with two
`ManagedAssetStatusOutput` in a state whose `FxID` is 1 is accepted, the loop
skipping that state, while the same two outputs in a state whose `FxID` is 0
give `errMultipleManagers`. -/
theorem two_managers_accepted :
    managerCount twoManagersFx1Tx.States = 2 ∧
    CreateAssetTx.SyntacticVerify acceptAll (some twoManagersFx1Tx) () () 1 () 0 0 2 = none ∧
    managerCount twoManagersFx0Tx.States = 2 ∧
    CreateAssetTx.SyntacticVerify acceptAll (some twoManagersFx0Tx) () () 1 () 0 0 2 =
      some Error.errMultipleManagers := by
  decide

/-- What the search for manager outputs checks as it is coded: an accepted
transaction holds at most one `ManagedAssetStatusOutput` in the states whose
`FxID` is 0, and a transaction that passes the earlier checks and holds two
or more of them in such states gets `errMultipleManagers`. -/
theorem at_most_one_manager (x : Externals Ctx Codec ID BaseTx) (t : CreateAssetTx BaseTx)
    (ctx : Ctx) (c : Codec) (codecVersion : Nat) (txFeeAssetID : ID) (u txFee : Nat)
    (numFxs : Int) :
    (CreateAssetTx.SyntacticVerify x (some t) ctx c codecVersion txFeeAssetID u txFee numFxs =
        none → managerCountFx0 t.States ≤ 1) ∧
    (PassesEarlierChecks x t ctx c codecVersion txFeeAssetID txFee numFxs →
      2 ≤ managerCountFx0 t.States →
      CreateAssetTx.SyntacticVerify x (some t) ctx c codecVersion txFeeAssetID u txFee numFxs =
        some Error.errMultipleManagers) := by
  constructor
  · intro h
    obtain ⟨_, b, hm, _⟩ :=
      (SyntacticVerify_eq_none_iff x t ctx c codecVersion txFeeAssetID u txFee numFxs).mp h
    rw [managerLoop_eq] at hm
    by_contra hgt
    simp [Bool.toNat, hgt] at hm
  · intro hp h2
    rw [SyntacticVerify_of_passes x t ctx c codecVersion txFeeAssetID u txFee numFxs hp,
      managerLoop_eq]
    have h3 : ¬ managerCountFx0 t.States ≤ 1 := by omega
    simp [Bool.toNat, h3]

theorem at_most_one_manager_witness :
    (CreateAssetTx.SyntacticVerify acceptAll (some oneManagerTx) () () 1 () 0 0 1 = none ∧
      managerCountFx0 oneManagerTx.States ≤ 1) ∧
    (PassesEarlierChecks acceptAll twoManagersTx () () 1 () 0 1 ∧
      2 ≤ managerCountFx0 twoManagersTx.States ∧
      CreateAssetTx.SyntacticVerify acceptAll (some twoManagersTx) () () 1 () 0 0 1 =
        some Error.errMultipleManagers) :=
  ⟨⟨by decide, (at_most_one_manager acceptAll oneManagerTx () () 1 () 0 0 1).1 (by decide)⟩,
   ⟨⟨by decide, by decide, by decide, rfl, rfl, rfl⟩, by decide,
    (at_most_one_manager acceptAll twoManagersTx () () 1 () 0 0 1).2
      ⟨by decide, by decide, by decide, rfl, rfl, rfl⟩ (by decide)⟩⟩


/-! ## C13 -/

/-- C13: size limits. An accepted transaction has a name of 1 to 128 bytes, a
symbol of 1 to 4 bytes, a denomination of at most 32 and at least one initial
state. A non-nil transaction gets `errNameTooShort` for an empty name,
`errNameTooLong` for a name of more than 128 bytes, `errSymbolTooShort` for
an empty symbol, `errSymbolTooLong` for a symbol of more than 4 bytes,
`errNoFxs` without initial state and `errDenominationTooLarge` for a
denomination above 32, the first violated check in this order deciding. -/
theorem size_limits (x : Externals Ctx Codec ID BaseTx) (t : CreateAssetTx BaseTx)
    (ctx : Ctx) (c : Codec) (codecVersion : Nat) (txFeeAssetID : ID) (u txFee : Nat)
    (numFxs : Int) :
    (CreateAssetTx.SyntacticVerify x (some t) ctx c codecVersion txFeeAssetID u txFee numFxs =
        none →
      1 ≤ t.Name.length ∧ t.Name.length ≤ 128 ∧ 1 ≤ t.Symbol.length ∧ t.Symbol.length ≤ 4 ∧
      t.Denomination.val ≤ 32 ∧ 1 ≤ t.States.length) ∧
    (t.Name.length = 0 →
      CreateAssetTx.SyntacticVerify x (some t) ctx c codecVersion txFeeAssetID u txFee numFxs =
        some Error.errNameTooShort) ∧
    (128 < t.Name.length →
      CreateAssetTx.SyntacticVerify x (some t) ctx c codecVersion txFeeAssetID u txFee numFxs =
        some Error.errNameTooLong) ∧
    (1 ≤ t.Name.length → t.Name.length ≤ 128 → t.Symbol.length = 0 →
      CreateAssetTx.SyntacticVerify x (some t) ctx c codecVersion txFeeAssetID u txFee numFxs =
        some Error.errSymbolTooShort) ∧
    (1 ≤ t.Name.length → t.Name.length ≤ 128 → 4 < t.Symbol.length →
      CreateAssetTx.SyntacticVerify x (some t) ctx c codecVersion txFeeAssetID u txFee numFxs =
        some Error.errSymbolTooLong) ∧
    (1 ≤ t.Name.length → t.Name.length ≤ 128 → 1 ≤ t.Symbol.length → t.Symbol.length ≤ 4 →
      t.States.length = 0 →
      CreateAssetTx.SyntacticVerify x (some t) ctx c codecVersion txFeeAssetID u txFee numFxs =
        some Error.errNoFxs) ∧
    (1 ≤ t.Name.length → t.Name.length ≤ 128 → 1 ≤ t.Symbol.length → t.Symbol.length ≤ 4 →
      1 ≤ t.States.length → 32 < t.Denomination.val →
      CreateAssetTx.SyntacticVerify x (some t) ctx c codecVersion txFeeAssetID u txFee numFxs =
        some Error.errDenominationTooLarge) := by
  refine ⟨fun h => ?_, fun h1 => ?_, fun h1 => ?_, fun h1 h2 h3 => ?_, fun h1 h2 h3 => ?_,
    fun h1 h2 h3 h4 h5 => ?_, fun h1 h2 h3 h4 h5 h6 => ?_⟩
  · obtain ⟨⟨hsize, _⟩, _⟩ :=
      (SyntacticVerify_eq_none_iff x t ctx c codecVersion txFeeAssetID u txFee numFxs).mp h
    obtain ⟨a1, a2, a3, a4, a5, a6, _⟩ := (sizeSwitch_eq_none_iff t).mp hsize
    exact ⟨a1, a2, a3, a4, a6, a5⟩
  all_goals
    apply SyntacticVerify_of_sizeSwitch
    unfold sizeSwitch minNameLen maxNameLen minSymbolLen maxSymbolLen maxDenomination
  · rw [if_pos (by omega)]
  · rw [if_neg (by omega), if_pos (by omega)]
  · rw [if_neg (by omega), if_neg (by omega), if_pos (by omega)]
  · rw [if_neg (by omega), if_neg (by omega), if_neg (by omega), if_pos (by omega)]
  · rw [if_neg (by omega), if_neg (by omega), if_neg (by omega), if_neg (by omega),
      if_pos h5]
  · rw [if_neg (by omega), if_neg (by omega), if_neg (by omega), if_neg (by omega),
      if_neg (by omega), if_pos (by omega)]

theorem size_limits_witness :
    (CreateAssetTx.SyntacticVerify acceptAll (some plainTx) () () 1 () 0 0 1 = none ∧
      1 ≤ plainTx.Name.length ∧ plainTx.Name.length ≤ 128 ∧ 1 ≤ plainTx.Symbol.length ∧
      plainTx.Symbol.length ≤ 4 ∧ plainTx.Denomination.val ≤ 32 ∧
      1 ≤ plainTx.States.length) ∧
    CreateAssetTx.SyntacticVerify acceptAll (some noNameTx) () () 1 () 0 0 1 =
      some Error.errNameTooShort ∧
    CreateAssetTx.SyntacticVerify acceptAll (some longNameTx) () () 1 () 0 0 1 =
      some Error.errNameTooLong ∧
    CreateAssetTx.SyntacticVerify acceptAll (some noSymbolTx) () () 1 () 0 0 1 =
      some Error.errSymbolTooShort ∧
    CreateAssetTx.SyntacticVerify acceptAll (some longSymbolTx) () () 1 () 0 0 1 =
      some Error.errSymbolTooLong ∧
    CreateAssetTx.SyntacticVerify acceptAll (some noStatesTx) () () 1 () 0 0 1 =
      some Error.errNoFxs ∧
    CreateAssetTx.SyntacticVerify acceptAll (some bigDenominationTx) () () 1 () 0 0 1 =
      some Error.errDenominationTooLarge :=
  ⟨⟨by decide, (size_limits acceptAll plainTx () () 1 () 0 0 1).1 (by decide)⟩,
   (size_limits acceptAll noNameTx () () 1 () 0 0 1).2.1 (by decide),
   (size_limits acceptAll longNameTx () () 1 () 0 0 1).2.2.1 (by simp [longNameTx]),
   (size_limits acceptAll noSymbolTx () () 1 () 0 0 1).2.2.2.1 (by decide) (by decide)
     (by decide),
   (size_limits acceptAll longSymbolTx () () 1 () 0 0 1).2.2.2.2.1 (by decide) (by decide)
     (by decide),
   (size_limits acceptAll noStatesTx () () 1 () 0 0 1).2.2.2.2.2.1 (by decide) (by decide)
     (by decide) (by decide) (by decide),
   (size_limits acceptAll bigDenominationTx () () 1 () 0 0 1).2.2.2.2.2.2 (by decide)
     (by decide) (by decide) (by decide) (by decide) (by decide)⟩

/-! ## C14 -/

/-- C14: on every accepted transaction each character of `Symbol` is one of
the ASCII letters `A..Z` (and the symbol is its own list of characters, one
byte each); a transaction that passes the head `switch` (sizes and white
space), whose name is legal and whose symbol has any other character gets
`errIllegalSymbolCharacter`. -/
theorem symbol_upper_case (x : Externals Ctx Codec ID BaseTx) (t : CreateAssetTx BaseTx)
    (ctx : Ctx) (c : Codec) (codecVersion : Nat) (txFeeAssetID : ID) (u txFee : Nat)
    (numFxs : Int) :
    (CreateAssetTx.SyntacticVerify x (some t) ctx c codecVersion txFeeAssetID u txFee numFxs =
        none →
      (∀ r ∈ runes t.Symbol, 0x41 ≤ r ∧ r ≤ 0x5A) ∧ runes t.Symbol = t.Symbol.map Fin.val) ∧
    (sizeSwitch t = none → nameLoop (runes t.Name) = none →
      (∃ r ∈ runes t.Symbol, ¬ (0x41 ≤ r ∧ r ≤ 0x5A)) →
      CreateAssetTx.SyntacticVerify x (some t) ctx c codecVersion txFeeAssetID u txFee numFxs =
        some Error.errIllegalSymbolCharacter) := by
  constructor
  · intro h
    obtain ⟨⟨_, _, hsym, _⟩, _⟩ :=
      (SyntacticVerify_eq_none_iff x t ctx c codecVersion txFeeAssetID u txFee numFxs).mp h
    have hall := (symbolLoop_eq_none_iff _).mp hsym
    exact ⟨fun r hr => (IsUpper_iff r).mp (hall r hr).2,
      runes_ascii _ (fun r hr => (hall r hr).1)⟩
  · rintro h1 h2 ⟨r, hr, hbad⟩
    cases h3 : symbolLoop (runes t.Symbol) with
    | none =>
      exact absurd ((IsUpper_iff r).mp (((symbolLoop_eq_none_iff _).mp h3) r hr).2) hbad
    | some e =>
      have he := symbolLoop_error _ e h3
      subst he
      simp [CreateAssetTx.SyntacticVerify, h1, h2, h3]

theorem symbol_upper_case_witness :
    (CreateAssetTx.SyntacticVerify acceptAll (some plainTx) () () 1 () 0 0 1 = none ∧
      (∀ r ∈ runes plainTx.Symbol, 0x41 ≤ r ∧ r ≤ 0x5A) ∧
      runes plainTx.Symbol = plainTx.Symbol.map Fin.val) ∧
    (sizeSwitch lowerSymbolTx = none ∧ nameLoop (runes lowerSymbolTx.Name) = none ∧
      (∃ r ∈ runes lowerSymbolTx.Symbol, ¬ (0x41 ≤ r ∧ r ≤ 0x5A)) ∧
      CreateAssetTx.SyntacticVerify acceptAll (some lowerSymbolTx) () () 1 () 0 0 1 =
        some Error.errIllegalSymbolCharacter) :=
  ⟨⟨by decide, (symbol_upper_case acceptAll plainTx () () 1 () 0 0 1).1 (by decide)⟩,
   ⟨by decide, by decide, by decide,
    (symbol_upper_case acceptAll lowerSymbolTx () () 1 () 0 0 1).2 (by decide) (by decide)
      (by decide)⟩⟩

/-! ## C16 -/

/-- C16: the code at the failing input. A transaction whose only
`ManagedAssetStatusOutput` is in a state whose `FxID` is 1 is accepted with
the pre-Apricot codec version, `hasManager` never being set, while the same
output in a state whose `FxID` is 0 gives `errCreateManagedAssetBadCodec`. -/
theorem manager_fx1_pre_apricot_accepted :
    managerCount managerFx1Tx.States = 1 ∧
    acceptAll.preApricotCodecVersion = 0 ∧
    CreateAssetTx.SyntacticVerify acceptAll (some managerFx1Tx) () () 0 () 0 0 2 = none ∧
    managerCount oneManagerTx.States = 1 ∧
    CreateAssetTx.SyntacticVerify acceptAll (some oneManagerTx) () () 0 () 0 0 2 =
      some Error.errCreateManagedAssetBadCodec := by
  decide

/-- What the codec check does as it is coded: for a transaction that passes
the earlier checks and holds one manager output in the states whose `FxID` is
0, `SyntacticVerify` returns `errCreateManagedAssetBadCodec` when
`codecVersion` is `preApricotCodecVersion` and nil otherwise; a transaction
that passes the earlier checks and holds no manager output in those states is
accepted whatever its codec version. -/
theorem managed_asset_codec (x : Externals Ctx Codec ID BaseTx) (t : CreateAssetTx BaseTx)
    (ctx : Ctx) (c : Codec) (codecVersion : Nat) (txFeeAssetID : ID) (u txFee : Nat)
    (numFxs : Int)
    (hp : PassesEarlierChecks x t ctx c codecVersion txFeeAssetID txFee numFxs) :
    (managerCountFx0 t.States = 1 →
      (codecVersion = x.preApricotCodecVersion →
        CreateAssetTx.SyntacticVerify x (some t) ctx c codecVersion txFeeAssetID u txFee
          numFxs = some Error.errCreateManagedAssetBadCodec) ∧
      (codecVersion ≠ x.preApricotCodecVersion →
        CreateAssetTx.SyntacticVerify x (some t) ctx c codecVersion txFeeAssetID u txFee
          numFxs = none) ∧
      (CreateAssetTx.SyntacticVerify x (some t) ctx c codecVersion txFeeAssetID u txFee
          numFxs = none →
        codecVersion ≠ x.preApricotCodecVersion ∧
        (x.preApricotCodecVersion ≤ codecVersion → x.preApricotCodecVersion < codecVersion))) ∧
    (managerCountFx0 t.States = 0 →
      CreateAssetTx.SyntacticVerify x (some t) ctx c codecVersion txFeeAssetID u txFee
        numFxs = none) := by
  have hsv := SyntacticVerify_of_passes x t ctx c codecVersion txFeeAssetID u txFee numFxs hp
  rw [managerLoop_eq] at hsv
  constructor
  · intro h1
    have hbad : codecVersion = x.preApricotCodecVersion →
        CreateAssetTx.SyntacticVerify x (some t) ctx c codecVersion txFeeAssetID u txFee
          numFxs = some Error.errCreateManagedAssetBadCodec := by
      intro hc
      rw [hsv]; simp [h1, Bool.toNat, hc]
    refine ⟨hbad, fun hc => ?_, fun hnone => ?_⟩
    · rw [hsv]; simp [h1, Bool.toNat, hc]
    · have hne : codecVersion ≠ x.preApricotCodecVersion := by
        intro hc
        rw [hbad hc] at hnone
        cases hnone
      exact ⟨hne, fun hle => Nat.lt_of_le_of_ne hle (Ne.symm hne)⟩
  · intro h0
    rw [hsv]; simp [h0, Bool.toNat]

theorem managed_asset_codec_witness :
    PassesEarlierChecks acceptAll oneManagerTx () () 0 () 0 1 ∧
    managerCountFx0 oneManagerTx.States = 1 ∧
    (0 : Nat) = acceptAll.preApricotCodecVersion ∧
    CreateAssetTx.SyntacticVerify acceptAll (some oneManagerTx) () () 0 () 0 0 1 =
      some Error.errCreateManagedAssetBadCodec ∧
    PassesEarlierChecks acceptAll oneManagerTx () () 1 () 0 1 ∧
    (1 : Nat) ≠ acceptAll.preApricotCodecVersion ∧
    CreateAssetTx.SyntacticVerify acceptAll (some oneManagerTx) () () 1 () 0 0 1 = none ∧
    PassesEarlierChecks acceptAll plainTx () () 0 () 0 1 ∧
    managerCountFx0 plainTx.States = 0 ∧
    CreateAssetTx.SyntacticVerify acceptAll (some plainTx) () () 0 () 0 0 1 = none :=
  ⟨⟨by decide, by decide, by decide, rfl, rfl, rfl⟩, by decide, rfl,
   ((managed_asset_codec acceptAll oneManagerTx () () 0 () 0 0 1
      ⟨by decide, by decide, by decide, rfl, rfl, rfl⟩).1 (by decide)).1 rfl,
   ⟨by decide, by decide, by decide, rfl, rfl, rfl⟩, by decide,
   ((managed_asset_codec acceptAll oneManagerTx () () 1 () 0 0 1
      ⟨by decide, by decide, by decide, rfl, rfl, rfl⟩).1 (by decide)).2.1 (by decide),
   ⟨by decide, by decide, by decide, rfl, rfl, rfl⟩, by decide,
   (managed_asset_codec acceptAll plainTx () () 0 () 0 0 1
      ⟨by decide, by decide, by decide, rfl, rfl, rfl⟩).2 (by decide)⟩

/-! ## C17 -/

/-- C17: a non-nil transaction that passes the size checks and whose name
begins or ends with white space, that is with `TrimSpace(Name) != Name`, gets
`errUnexpectedWhitespace`, whatever the characters of its name and of its
symbol are. -/
theorem whitespace_rejected (x : Externals Ctx Codec ID BaseTx) (t : CreateAssetTx BaseTx)
    (ctx : Ctx) (c : Codec) (codecVersion : Nat) (txFeeAssetID : ID) (u txFee : Nat)
    (numFxs : Int)
    (h1 : 1 ≤ t.Name.length) (h2 : t.Name.length ≤ 128) (h3 : 1 ≤ t.Symbol.length)
    (h4 : t.Symbol.length ≤ 4) (h5 : 1 ≤ t.States.length) (h6 : t.Denomination.val ≤ 32) :
    (TrimSpace t.Name ≠ t.Name ↔ beginsWithSpace t.Name ∨ endsWithSpace t.Name) ∧
    (TrimSpace t.Name ≠ t.Name →
      CreateAssetTx.SyntacticVerify x (some t) ctx c codecVersion txFeeAssetID u txFee numFxs =
        some Error.errUnexpectedWhitespace) := by
  refine ⟨TrimSpace_ne_iff t.Name, fun hws => ?_⟩
  apply SyntacticVerify_of_sizeSwitch
  unfold sizeSwitch minNameLen maxNameLen minSymbolLen maxSymbolLen maxDenomination
  rw [if_neg (by omega), if_neg (by omega), if_neg (by omega), if_neg (by omega),
    if_neg (by omega), if_neg (by omega), if_pos hws]

theorem whitespace_rejected_witness :
    TrimSpace paddedTx.Name ≠ paddedTx.Name ∧
    nameLoop (runes paddedTx.Name) = some Error.errIllegalNameCharacter ∧
    symbolLoop (runes paddedTx.Symbol) = some Error.errIllegalSymbolCharacter ∧
    CreateAssetTx.SyntacticVerify acceptAll (some paddedTx) () () 1 () 0 0 1 =
      some Error.errUnexpectedWhitespace :=
  ⟨by decide, by decide, by decide,
   (whitespace_rejected acceptAll paddedTx () () 1 () 0 0 1 (by decide) (by decide)
      (by decide) (by decide) (by decide) (by decide)).2 (by decide)⟩

end avm

/-! ## The trie: proofs -/

namespace merkledb

/-! ## The trie: path segments -/

theorem splitPrefix_append (p : List Byte) :
    ∀ (s k : List Byte), (∀ a sr b kr, s = a :: sr → k = b :: kr → a ≠ b) →
      splitPrefix (p ++ s) (p ++ k) = (p, s, k) := by
  induction p with
  | nil =>
    intro s k h
    cases s with
    | nil => cases k <;> simp [splitPrefix]
    | cons a sr =>
      cases k with
      | nil => simp [splitPrefix]
      | cons b kr =>
        have := h a sr b kr rfl rfl
        simp [splitPrefix, this]
  | cons c p ih =>
    intro s k h
    simp [splitPrefix, ih s k h]

/-- How a key lies with respect to a path segment: it is the segment, it goes
on after the segment, it ends inside the segment, or it diverges from it. -/
theorem segment_cases (s k : List Byte) :
    k = s ∨ (∃ x, x ≠ [] ∧ k = s ++ x) ∨ (∃ a sr, s = k ++ a :: sr) ∨
    (∃ p a sr b kr, a ≠ b ∧ s = p ++ a :: sr ∧ k = p ++ b :: kr) := by
  induction s generalizing k with
  | nil =>
    cases k with
    | nil => exact Or.inl rfl
    | cons b kr => exact Or.inr (Or.inl ⟨b :: kr, by simp, by simp⟩)
  | cons a s ih =>
    cases k with
    | nil => exact Or.inr (Or.inr (Or.inl ⟨a, s, by simp⟩))
    | cons b kr =>
      by_cases hab : a = b
      · subst hab
        rcases ih kr with h | ⟨x, hx, h⟩ | ⟨a2, sr, h⟩ | ⟨p, a2, sr, b2, kr2, hne, h1, h2⟩
        · exact Or.inl (by rw [h])
        · exact Or.inr (Or.inl ⟨x, hx, by rw [h]; simp⟩)
        · exact Or.inr (Or.inr (Or.inl ⟨a2, sr, by rw [h]; simp⟩))
        · exact Or.inr (Or.inr (Or.inr ⟨a :: p, a2, sr, b2, kr2, hne, by rw [h1]; simp,
            by rw [h2]; simp⟩))
      · exact Or.inr (Or.inr (Or.inr ⟨[], a, s, b, kr, hab, by simp, by simp⟩))

theorem putAt_self (ins : List Byte → Children) (s : List Byte) (val : Option (List Byte))
    (kids : Children) (v : List Byte) :
    putAt ins s val kids s v = { pathSegment := s, value := some v, children := kids } := by
  have h := splitPrefix_append s [] [] (by intro a sr b kr h; cases h)
  simp only [List.append_nil] at h
  simp [putAt, h]

theorem putAt_below (ins : List Byte → Children) (s : List Byte) (val : Option (List Byte))
    (kids : Children) (x : List Byte) (hx : x ≠ []) (v : List Byte) :
    putAt ins s val kids (s ++ x) v =
      { pathSegment := s, value := val, children := ins x } := by
  have h := splitPrefix_append s [] x (by intro a sr b kr h; cases h)
  simp only [List.append_nil] at h
  cases x with
  | nil => exact absurd rfl hx
  | cons b kr => simp [putAt, h]

theorem putAt_inside (ins : List Byte → Children) (p : List Byte) (a : Byte)
    (sr : List Byte) (val : Option (List Byte)) (kids : Children) (v : List Byte) :
    putAt ins (p ++ a :: sr) val kids p v =
      { pathSegment := p, value := some v,
        children := Children.cons (a :: sr) val kids Children.nil } := by
  have h := splitPrefix_append p (a :: sr) [] (by intro a sr b kr _ h; cases h)
  simp only [List.append_nil] at h
  simp [putAt, h]

theorem putAt_diverge (ins : List Byte → Children) (p : List Byte) (a : Byte)
    (sr : List Byte) (b : Byte) (kr : List Byte) (hab : a ≠ b) (val : Option (List Byte))
    (kids : Children) (v : List Byte) :
    putAt ins (p ++ a :: sr) val kids (p ++ b :: kr) v =
      { pathSegment := p, value := none,
        children :=
          if a < b then
            Children.cons (a :: sr) val kids
              (Children.cons (b :: kr) (some v) Children.nil Children.nil)
          else
            Children.cons (b :: kr) (some v) Children.nil
              (Children.cons (a :: sr) val kids Children.nil) } := by
  have h := splitPrefix_append p (a :: sr) (b :: kr) (by
    intro a2 sr2 b2 kr2 h1 h2
    cases h1; cases h2; exact hab)
  simp [putAt, h]

theorem firstUnit_append (p x : List Byte) (hp : p ≠ []) : firstUnit (p ++ x) = firstUnit p := by
  cases p with
  | nil => exact absurd rfl hp
  | cons a p => rfl

theorem firstUnit_eq_zero (s : List Byte) : firstUnit s = 0 ↔ s = [] := by
  cases s <;> simp [firstUnit]

theorem firstUnit_prefix_eq (s k : List Byte) (hs : s ≠ []) (h : s <+: k) :
    firstUnit k = firstUnit s := by
  obtain ⟨x, rfl⟩ := h
  exact firstUnit_append s x hs


/-! ## The trie: lookups -/

theorem lookupF_cons (s : List Byte) (val : Option (List Byte)) (kids rest : Children)
    (k : List Byte) :
    lookupF (Children.cons s val kids rest) k =
      Node.lookup { pathSegment := s, value := val, children := kids } (lookupF rest) k := by
  simp [lookupF, Node.lookup]

theorem lookupF_nil (k : List Byte) : lookupF Children.nil k = none := rfl

theorem node_lookup_self (n : Node) (fb : List Byte → Option (List Byte)) :
    n.lookup fb n.pathSegment = n.value := by
  simp [Node.lookup]

theorem node_lookup_below (n : Node) (fb : List Byte → Option (List Byte)) (x : List Byte)
    (hx : x ≠ []) : n.lookup fb (n.pathSegment ++ x) = lookupF n.children x := by
  simp [Node.lookup, hx]

theorem node_lookup_not_prefix_eq (n : Node) (fb : List Byte → Option (List Byte))
    (k : List Byte) (h : ¬ n.pathSegment <+: k) : n.lookup fb k = fb k := by
  simp [Node.lookup, h]

theorem node_lookup_congr (n : Node) (fb1 fb2 : List Byte → Option (List Byte))
    (k : List Byte) (h : ¬ n.pathSegment <+: k → fb1 k = fb2 k) :
    n.lookup fb1 k = n.lookup fb2 k := by
  by_cases hp : n.pathSegment <+: k
  · simp [Node.lookup, hp]
  · simp [Node.lookup, hp, h hp]

/-- A common prefix of the path segment and of the key can be dropped from
both. -/
theorem node_lookup_append (p s : List Byte) (val : Option (List Byte)) (kids : Children)
    (fb : List Byte → Option (List Byte)) (y : List Byte) :
    Node.lookup { pathSegment := p ++ s, value := val, children := kids } fb (p ++ y) =
      Node.lookup { pathSegment := s, value := val, children := kids }
        (fun z => fb (p ++ z)) y := by
  simp only [Node.lookup, List.prefix_append_right_inj, List.append_cancel_left_eq,
    List.length_append]
  by_cases hp : s <+: y
  · obtain ⟨z, rfl⟩ := hp
    simp [← List.append_assoc, List.drop_left']
  · simp [hp]

theorem HeadLt_of_le (x s : List Byte) (f : Children) (h : firstUnit x ≤ firstUnit s)
    (hs : HeadLt s f) : HeadLt x f := by
  cases f with
  | nil => trivial
  | cons s2 v2 k2 r2 =>
    simp only [HeadLt] at hs ⊢
    omega

/-- A key whose first path unit is below those of all the nodes is not
stored. -/
theorem lookupF_of_headLt :
    ∀ (f : Children) (k : List Byte), Canonical f → HeadLt k f → lookupF f k = none
  | Children.nil, _, _, _ => rfl
  | Children.cons s val kids rest, k, hc, hk => by
    obtain ⟨hs, _, _, hrest, hlt⟩ := hc
    simp only [HeadLt] at hk
    have hnp : ¬ s <+: k := fun hp => by
      have := firstUnit_prefix_eq s k hs hp
      omega
    rw [lookupF_cons, node_lookup_not_prefix_eq _ _ _ hnp]
    exact lookupF_of_headLt rest k hrest (HeadLt_of_le k s rest (Nat.le_of_lt hk) hlt)

theorem lookupF_empty_key (f : Children) (hc : Canonical f) : lookupF f [] = none := by
  apply lookupF_of_headLt f [] hc
  cases f with
  | nil => trivial
  | cons s val kids rest =>
    have hs : s ≠ [] := hc.1
    cases s with
    | nil => exact absurd rfl hs
    | cons a s => simp [HeadLt, firstUnit]

/-- The siblings after a node store no key that starts like the node. -/
theorem lookupF_rest_of_unit (s : List Byte) (rest : Children) (k : List Byte)
    (hrest : Canonical rest) (hlt : HeadLt s rest) (hk : firstUnit k = firstUnit s) :
    lookupF rest k = none :=
  lookupF_of_headLt rest k hrest (HeadLt_of_le k s rest (Nat.le_of_eq hk) hlt)

theorem lookupF_leaf (l v : List Byte) (rest : Children) (y : List Byte) :
    lookupF (Children.cons l (some v) Children.nil rest) y =
      if y = l then some v else if l <+: y then none else lookupF rest y := by
  rw [lookupF_cons]
  by_cases hp : l <+: y
  · by_cases he : y = l
    · simp [Node.lookup, hp, he]
    · simp [Node.lookup, hp, he, lookupF_nil]
  · have he : y ≠ l := fun h => hp (by rw [h])
    simp [Node.lookup, hp, he]

/-- `put` at one node stores the value at the key and leaves every other key
as it was, when the insertion below the node does so and no key passing
through the new node is answered by the fallback. -/
theorem node_lookup_putAt (ins : List Byte → Children) (s : List Byte)
    (val : Option (List Byte)) (kids : Children) (k v : List Byte)
    (fb : List Byte → Option (List Byte))
    (hins : ∀ x, x ≠ [] → ∀ y, lookupF (ins x) y = if y = x then some v else lookupF kids y)
    (hfb : ∀ y, (putAt ins s val kids k v).pathSegment <+: y → fb y = none)
    (y : List Byte) :
    (putAt ins s val kids k v).lookup fb y =
      if y = k then some v
      else Node.lookup { pathSegment := s, value := val, children := kids } fb y := by
  rcases segment_cases s k with h | ⟨x, hx, h⟩ | ⟨a, sr, h⟩ | ⟨p, a, sr, b, kr, hab, h1, h2⟩
  · subst h
    rw [putAt_self]
    by_cases hp : k <+: y
    · by_cases he : y = k
      · simp [Node.lookup, he]
      · simp [Node.lookup, hp, he]
    · have he : y ≠ k := fun h => hp (by rw [h])
      simp [Node.lookup, hp, he]
  · subst h
    rw [putAt_below ins s val kids x hx v]
    by_cases hp : s <+: y
    · obtain ⟨z, rfl⟩ := hp
      by_cases hz : z = []
      · subst hz
        have : s ≠ s ++ x := fun h => hx (by simpa using h.symm)
        simp [Node.lookup, this]
      · simp [Node.lookup, hz, hins x hx z]
    · have he : y ≠ s ++ x := fun h => hp (by rw [h]; exact List.prefix_append s x)
      simp [Node.lookup, hp, he]
  · subst h
    rw [putAt_inside] at hfb ⊢
    by_cases hp : k <+: y
    · obtain ⟨z, rfl⟩ := hp
      by_cases hz : z = []
      · subst hz
        simp [Node.lookup]
      · have hne : k ++ z ≠ k := fun h => hz (by simpa using h)
        rw [if_neg hne, node_lookup_append, node_lookup_below _ _ z hz, lookupF_cons]
        apply node_lookup_congr
        intro _
        simp only [lookupF_nil]
        exact (hfb (k ++ z) (List.prefix_append k z)).symm
    · have he : y ≠ k := fun h => hp (by rw [h])
      have hnp : ¬ (k ++ a :: sr) <+: y := fun h => hp ((List.prefix_append k _).trans h)
      simp [Node.lookup, hp, he, hnp]
  · subst h1 h2
    rw [putAt_diverge ins p a sr b kr hab] at hfb ⊢
    by_cases hp : p <+: y
    · obtain ⟨z, rfl⟩ := hp
      have hfbz : fb (p ++ z) = none := hfb (p ++ z) (List.prefix_append p z)
      by_cases hz : z = []
      · subst hz
        have h1 : p ≠ p ++ b :: kr := fun h => by simp at h
        have h2 : ¬ (p ++ a :: sr) <+: p := fun h => by
          have := h.length_le
          simp at this
        simp only [List.append_nil] at hfbz ⊢
        rw [if_neg h1, node_lookup_self, node_lookup_not_prefix_eq _ _ _ h2, hfbz]
      · rw [node_lookup_below _ _ z hz, node_lookup_append]
        simp only [List.append_cancel_left_eq]
        have hpa : (a :: sr) <+: z → ¬ (b :: kr) <+: z := by
          rintro ⟨z1, rfl⟩ ⟨z2, h⟩
          simp at h
          exact hab h.1.symm
        by_cases hlt : a < b
        · simp only [hlt, if_true, lookupF_cons]
          by_cases hpz : (a :: sr) <+: z
          · have hne : z ≠ b :: kr := fun h => hpa hpz (by rw [h])
            rw [if_neg hne]
            exact node_lookup_congr _ _ _ _ (fun h => absurd hpz h)
          · rw [node_lookup_not_prefix_eq _ _ _ hpz, node_lookup_not_prefix_eq _ _ _ hpz,
              lookupF_leaf, lookupF_nil]
            simp only [hfbz]
            by_cases he : z = b :: kr
            · simp [he]
            · simp [he]
        · simp only [hlt, if_false, lookupF_leaf]
          by_cases he : z = b :: kr
          · simp [he]
          · rw [if_neg he, if_neg he]
            by_cases hpz : (b :: kr) <+: z
            · have hna : ¬ (a :: sr) <+: z := fun h => hpa h hpz
              rw [if_pos hpz, node_lookup_not_prefix_eq _ _ _ hna, hfbz]
            · rw [if_neg hpz, lookupF_cons]
              apply node_lookup_congr
              intro _
              rw [lookupF_nil, hfbz]
    · have he : y ≠ p ++ b :: kr := fun h => hp (by rw [h]; exact List.prefix_append p _)
      have hnp : ¬ (p ++ a :: sr) <+: y := fun h => hp ((List.prefix_append p _).trans h)
      rw [if_neg he, node_lookup_not_prefix_eq _ _ _ hp, node_lookup_not_prefix_eq _ _ _ hnp]


/-! ## The trie: `put` -/

theorem insertF_cons (s : List Byte) (val : Option (List Byte)) (kids rest : Children)
    (k v : List Byte) :
    insertF (Children.cons s val kids rest) k v =
      if firstUnit s = firstUnit k then
        consNode (some (putAt (fun kr => insertF kids kr v) s val kids k v)) rest
      else if firstUnit k < firstUnit s then
        Children.cons k (some v) Children.nil (Children.cons s val kids rest)
      else Children.cons s val kids (insertF rest k v) := by
  simp [insertF, consNode]

theorem firstUnit_cons_inj (a b : Byte) (s k : List Byte)
    (h : firstUnit (a :: s) = firstUnit (b :: k)) : a = b := by
  simp only [firstUnit, Nat.add_right_cancel_iff] at h
  exact Fin.ext h

/-- The path segment of the node `put` leaves is a prefix of the old one, and
it is not empty when the key starts like the old one. -/
theorem putAt_pathSegment (ins : List Byte → Children) (s : List Byte)
    (val : Option (List Byte)) (kids : Children) (k v : List Byte) :
    (putAt ins s val kids k v).pathSegment <+: s ∧
    (s ≠ [] → firstUnit s = firstUnit k → (putAt ins s val kids k v).pathSegment ≠ []) := by
  rcases segment_cases s k with h | ⟨x, hx, h⟩ | ⟨a, sr, h⟩ | ⟨p, a, sr, b, kr, hab, h1, h2⟩
  · subst h
    rw [putAt_self]
    exact ⟨List.prefix_refl _, fun h _ => h⟩
  · subst h
    rw [putAt_below ins s val kids x hx v]
    exact ⟨List.prefix_refl _, fun h _ => h⟩
  · subst h
    rw [putAt_inside]
    refine ⟨List.prefix_append _ _, fun _ hu hk => ?_⟩
    subst hk
    simp [firstUnit] at hu
  · subst h1 h2
    rw [putAt_diverge ins p a sr b kr hab]
    refine ⟨List.prefix_append _ _, fun _ hu hp => ?_⟩
    subst hp
    exact hab (firstUnit_cons_inj a b sr kr hu)

theorem canonical_cons (s : List Byte) (val : Option (List Byte)) (kids rest : Children)
    (hs : s ≠ []) (hval : val = none → 2 ≤ kids.length) (hkids : Canonical kids)
    (hrest : Canonical rest) (hlt : HeadLt s rest) :
    Canonical (Children.cons s val kids rest) :=
  And.intro hs (And.intro hval (And.intro hkids (And.intro hrest hlt)))

theorem canonical_leaf (k v : List Byte) (rest : Children) (hk : k ≠ [])
    (hrest : Canonical rest) (hlt : HeadLt k rest) :
    Canonical (Children.cons k (some v) Children.nil rest) :=
  canonical_cons k (some v) Children.nil rest hk (by simp) trivial hrest hlt

/-- `put` below a node stores the value at the key and leaves every other key
as it was. -/
theorem lookupF_insertF (f : Children) :
    ∀ (k v : List Byte), Canonical f → k ≠ [] →
      ∀ y, lookupF (insertF f k v) y = if y = k then some v else lookupF f y := by
  induction f with
  | nil =>
    intro k v _ _ y
    simp only [insertF, lookupF_leaf, lookupF_nil]
    by_cases he : y = k
    · simp [he]
    · simp [he]
  | cons s val kids rest ihk ihr =>
    intro k v hc hk y
    obtain ⟨hs, hval, hkids, hrest, hlt⟩ := hc
    rw [insertF_cons]
    by_cases hu : firstUnit s = firstUnit k
    · rw [if_pos hu]
      simp only [consNode]
      rw [lookupF_cons, lookupF_cons]
      have hseg := putAt_pathSegment (fun kr => insertF kids kr v) s val kids k v
      apply node_lookup_putAt (fun kr => insertF kids kr v) s val kids k v (lookupF rest)
      · intro x hx z
        exact ihk x v hkids hx z
      · intro z hz
        apply lookupF_rest_of_unit s rest z hrest hlt
        rw [firstUnit_prefix_eq _ z (hseg.2 hs hu) hz,
          ← firstUnit_prefix_eq _ s (hseg.2 hs hu) hseg.1]
    · rw [if_neg hu]
      by_cases hlow : firstUnit k < firstUnit s
      · rw [if_pos hlow, lookupF_leaf]
        by_cases he : y = k
        · simp [he]
        · rw [if_neg he, if_neg he]
          by_cases hp : k <+: y
          · rw [if_pos hp]
            symm
            apply lookupF_of_headLt _ y
              (canonical_cons s val kids rest hs hval hkids hrest hlt)
            simp only [HeadLt]
            rw [firstUnit_prefix_eq k y hk hp]
            exact hlow
          · rw [if_neg hp]
      · rw [if_neg hlow, lookupF_cons, lookupF_cons]
        by_cases hp : s <+: y
        · have he : y ≠ k := fun h => hu (by rw [← h, firstUnit_prefix_eq s y hs hp])
          rw [if_neg he]
          exact node_lookup_congr _ _ _ _ (fun h => absurd hp h)
        · rw [node_lookup_not_prefix_eq _ _ _ hp, node_lookup_not_prefix_eq _ _ _ hp]
          exact ihr k v hrest hk y

theorem children_length_cons (s : List Byte) (val : Option (List Byte))
    (kids rest : Children) : (Children.cons s val kids rest).length = rest.length + 1 := rfl

/-- `put` at one node keeps the canonical shape. -/
theorem canonical_putAt (ins : List Byte → Children) (s : List Byte)
    (val : Option (List Byte)) (kids : Children) (k v : List Byte)
    (hn : Node.Canonical { pathSegment := s, value := val, children := kids })
    (hins : ∀ x, x ≠ [] → Canonical (ins x) ∧ kids.length ≤ (ins x).length) :
    (putAt ins s val kids k v).Canonical := by
  obtain ⟨hval, hkids⟩ := hn
  simp only at hval hkids
  rcases segment_cases s k with h | ⟨x, hx, h⟩ | ⟨a, sr, h⟩ | ⟨p, a, sr, b, kr, hab, h1, h2⟩
  · subst h
    rw [putAt_self]
    exact And.intro (by simp) hkids
  · subst h
    rw [putAt_below ins s val kids x hx v]
    exact And.intro (fun h => Nat.le_trans (hval h) (hins x hx).2) (hins x hx).1
  · subst h
    rw [putAt_inside]
    exact And.intro (by simp)
      (canonical_cons (a :: sr) val kids Children.nil (by simp) hval hkids trivial trivial)
  · subst h1 h2
    rw [putAt_diverge ins p a sr b kr hab]
    by_cases hlt : a < b
    · simp only [hlt, if_true]
      refine And.intro (fun _ => by simp [Children.length]) ?_
      apply canonical_cons (a :: sr) val kids _ (by simp) hval hkids
      · exact canonical_leaf (b :: kr) v Children.nil (by simp) trivial trivial
      · simp only [HeadLt, firstUnit]
        exact Nat.add_lt_add_right hlt 1
    · simp only [hlt, if_false]
      refine And.intro (fun _ => by simp [Children.length]) ?_
      apply canonical_leaf (b :: kr) v _ (by simp)
      · exact canonical_cons (a :: sr) val kids Children.nil (by simp) hval hkids trivial
          trivial
      · simp only [HeadLt, firstUnit]
        have hne : a.val ≠ b.val := fun h => hab (Fin.ext h)
        have hle : b.val ≤ a.val := Nat.le_of_not_lt hlt
        omega

/-- `put` below a node keeps the canonical shape, removes no node and keeps
the first path units above any bound below that of the key. -/
theorem canonical_insertF (f : Children) :
    ∀ (k v : List Byte), Canonical f → k ≠ [] →
      Canonical (insertF f k v) ∧ f.length ≤ (insertF f k v).length ∧
      ∀ x, HeadLt x f → firstUnit x < firstUnit k → HeadLt x (insertF f k v) := by
  induction f with
  | nil =>
    intro k v _ hk
    exact And.intro (canonical_leaf k v Children.nil hk trivial trivial)
      (And.intro (Nat.zero_le _) (fun x _ hx => hx))
  | cons s val kids rest ihk ihr =>
    intro k v hc hk
    obtain ⟨hs, hval, hkids, hrest, hlt⟩ := hc
    rw [insertF_cons]
    by_cases hu : firstUnit s = firstUnit k
    · rw [if_pos hu]
      have hseg := putAt_pathSegment (fun kr => insertF kids kr v) s val kids k v
      have hne := hseg.2 hs hu
      have hunit : firstUnit (putAt (fun kr => insertF kids kr v) s val kids k v).pathSegment
          = firstUnit s := (firstUnit_prefix_eq _ s hne hseg.1).symm
      have hcan := canonical_putAt (fun kr => insertF kids kr v) s val kids k v
        (And.intro hval hkids)
        (fun x hx => And.intro (ihk x v hkids hx).1 (ihk x v hkids hx).2.1)
      simp only [consNode]
      refine And.intro (canonical_cons _ _ _ rest hne hcan.1 hcan.2 hrest
        (HeadLt_of_le _ s rest (Nat.le_of_eq hunit) hlt))
        (And.intro (Nat.le_refl _) (fun x hx _ => ?_))
      simp only [HeadLt] at hx ⊢
      omega
    · rw [if_neg hu]
      by_cases hlow : firstUnit k < firstUnit s
      · rw [if_pos hlow]
        exact And.intro
          (canonical_leaf k v _ hk (canonical_cons s val kids rest hs hval hkids hrest hlt)
            hlow)
          (And.intro (Nat.le_succ _) (fun x _ hx => hx))
      · rw [if_neg hlow]
        obtain ⟨h1, h2, h3⟩ := ihr k v hrest hk
        refine And.intro (canonical_cons s val kids _ hs hval hkids h1 (h3 s hlt (by omega)))
          (And.intro ?_ (fun x hx _ => hx))
        simp only [children_length_cons]
        omega


/-! ## The trie: `delete` -/

theorem lookupF_consNode (o : Option Node) (rest : Children) (y : List Byte) :
    lookupF (consNode o rest) y = lookupOpt o (lookupF rest) y := by
  cases o with
  | none => rfl
  | some n => simp [consNode, lookupOpt, lookupF_cons]

/-- Collapsing a node changes no stored key, when no key passing through the
node is answered by the fallback. -/
theorem lookupOpt_collapse (s : List Byte) (val : Option (List Byte)) (kids : Children)
    (fb : List Byte → Option (List Byte)) (hkids : Canonical kids)
    (hfb : ∀ y, s <+: y → fb y = none) (y : List Byte) :
    lookupOpt (collapse s val kids) fb y =
      Node.lookup { pathSegment := s, value := val, children := kids } fb y := by
  cases val with
  | some w => rfl
  | none =>
    cases kids with
    | nil =>
      simp only [collapse, lookupOpt]
      by_cases hp : s <+: y
      · by_cases he : y = s
        · simp [Node.lookup, he, hfb s (List.prefix_refl s)]
        · simp [Node.lookup, hp, he, lookupF_nil, hfb y hp]
      · simp [Node.lookup, hp]
    | cons s2 v2 k2 r2 =>
      cases r2 with
      | cons s3 v3 k3 r3 => rfl
      | nil =>
        have hs2 : s2 ≠ [] := hkids.1
        simp only [collapse, lookupOpt]
        by_cases hp : s <+: y
        · obtain ⟨z, rfl⟩ := hp
          have hfbz : fb (s ++ z) = none := hfb _ (List.prefix_append s z)
          rw [node_lookup_append]
          by_cases hz : z = []
          · subst hz
            have hnp : ¬ s2 <+: [] := fun h => hs2 (List.prefix_nil.mp h)
            rw [node_lookup_not_prefix_eq _ _ _ hnp]
            simp only [List.append_nil] at hfbz ⊢
            rw [hfbz, node_lookup_self]
          · rw [node_lookup_below _ _ z hz, lookupF_cons]
            apply node_lookup_congr
            intro _
            rw [lookupF_nil, hfbz]
        · have hnp : ¬ (s ++ s2) <+: y := fun h => hp ((List.prefix_append s s2).trans h)
          rw [node_lookup_not_prefix_eq _ _ _ hnp, node_lookup_not_prefix_eq _ _ _ hp]

/-- Collapsing a node gives a node of canonical shape whose path segment
starts with the old one. -/
theorem canonical_collapse (s : List Byte) (val : Option (List Byte)) (kids : Children)
    (hkids : Canonical kids) :
    ∀ n, collapse s val kids = some n → n.Canonical ∧ s <+: n.pathSegment := by
  intro n hn
  cases val with
  | some w =>
    simp only [collapse, Option.some.injEq] at hn
    subst hn
    exact And.intro (And.intro (by simp) hkids) (List.prefix_refl s)
  | none =>
    cases kids with
    | nil => simp [collapse] at hn
    | cons s2 v2 k2 r2 =>
      cases r2 with
      | cons s3 v3 k3 r3 =>
        simp only [collapse, Option.some.injEq] at hn
        subst hn
        exact And.intro (And.intro (fun _ => by simp [Children.length]) hkids)
          (List.prefix_refl s)
      | nil =>
        simp only [collapse, Option.some.injEq] at hn
        subst hn
        exact And.intro (And.intro hkids.2.1 hkids.2.2.1) (List.prefix_append s s2)

theorem eraseF_cons (s : List Byte) (val : Option (List Byte)) (kids rest : Children)
    (k : List Byte) :
    eraseF (Children.cons s val kids rest) k =
      if s <+: k then
        if k = s then consNode (collapse s none kids) rest
        else consNode (collapse s val (eraseF kids (k.drop s.length))) rest
      else Children.cons s val kids (eraseF rest k) := by
  simp [eraseF]

/-- `delete` below a node keeps the canonical shape and keeps the first path
units above any bound. -/
theorem canonical_eraseF (f : Children) :
    ∀ (k : List Byte), Canonical f →
      Canonical (eraseF f k) ∧ ∀ x, HeadLt x f → HeadLt x (eraseF f k) := by
  induction f with
  | nil =>
    intro k _
    exact And.intro trivial (fun x _ => trivial)
  | cons s val kids rest ihk ihr =>
    intro k hc
    obtain ⟨hs, hval, hkids, hrest, hlt⟩ := hc
    have hnode : ∀ (w : Option (List Byte)) (kids2 : Children), Canonical kids2 →
        Canonical (consNode (collapse s w kids2) rest) ∧
        ∀ x, HeadLt x (Children.cons s val kids rest) →
          HeadLt x (consNode (collapse s w kids2) rest) := by
      intro w kids2 hk2
      cases hco : collapse s w kids2 with
      | none =>
        refine And.intro hrest (fun x hx => ?_)
        simp only [HeadLt] at hx
        exact HeadLt_of_le x s rest (Nat.le_of_lt hx) hlt
      | some n =>
        obtain ⟨hn, hpre⟩ := canonical_collapse s w kids2 hk2 n hco
        have hne : n.pathSegment ≠ [] := fun h => hs (List.prefix_nil.mp (h ▸ hpre))
        have hunit : firstUnit n.pathSegment = firstUnit s := firstUnit_prefix_eq s _ hs hpre
        refine And.intro (canonical_cons _ _ _ rest hne hn.1 hn.2 hrest
          (HeadLt_of_le _ s rest (Nat.le_of_eq hunit) hlt)) (fun x hx => ?_)
        simp only [consNode, HeadLt] at hx ⊢
        omega
    rw [eraseF_cons]
    by_cases hp : s <+: k
    · rw [if_pos hp]
      by_cases he : k = s
      · rw [if_pos he]
        exact hnode none kids hkids
      · rw [if_neg he]
        exact hnode val _ (ihk _ hkids).1
    · rw [if_neg hp]
      obtain ⟨h1, h2⟩ := ihr k hrest
      exact And.intro (canonical_cons s val kids _ hs hval hkids h1 (h2 s hlt))
        (fun x hx => hx)

/-- `delete` below a node removes the key and leaves every other key as it
was. -/
theorem lookupF_eraseF (f : Children) :
    ∀ (k : List Byte), Canonical f →
      ∀ y, lookupF (eraseF f k) y = if y = k then none else lookupF f y := by
  induction f with
  | nil =>
    intro k _ y
    simp [eraseF, lookupF_nil]
  | cons s val kids rest ihk ihr =>
    intro k hc y
    obtain ⟨hs, hval, hkids, hrest, hlt⟩ := hc
    have hfb : ∀ z, s <+: z → lookupF rest z = none := fun z hz =>
      lookupF_rest_of_unit s rest z hrest hlt (firstUnit_prefix_eq s z hs hz)
    rw [eraseF_cons, lookupF_cons]
    by_cases hp : s <+: k
    · rw [if_pos hp]
      by_cases he : k = s
      · subst he
        rw [if_pos rfl, lookupF_consNode, lookupOpt_collapse k none kids _ hkids hfb]
        by_cases hy : y = k
        · rw [if_pos hy, hy, node_lookup_self]
        · rw [if_neg hy]
          simp [Node.lookup, hy]
      · rw [if_neg he, lookupF_consNode,
          lookupOpt_collapse s val _ _ (canonical_eraseF kids _ hkids).1 hfb]
        obtain ⟨x, rfl⟩ := hp
        have hx : x ≠ [] := fun h => he (by simp [h])
        simp only [List.drop_left']
        by_cases hpy : s <+: y
        · obtain ⟨z, rfl⟩ := hpy
          by_cases hz : z = []
          · subst hz
            have : s ≠ s ++ x := fun h => hx (by simpa using h.symm)
            simp [Node.lookup, this]
          · simp [Node.lookup, hz, ihk x hkids z]
        · have hne : y ≠ s ++ x := fun h => hpy (by rw [h]; exact List.prefix_append s x)
          rw [if_neg hne, node_lookup_not_prefix_eq _ _ _ hpy,
            node_lookup_not_prefix_eq _ _ _ hpy]
    · rw [if_neg hp, lookupF_cons]
      by_cases hpy : s <+: y
      · have hne : y ≠ k := fun h => hp (h ▸ hpy)
        rw [if_neg hne]
        exact node_lookup_congr _ _ _ _ (fun h => absurd hpy h)
      · rw [node_lookup_not_prefix_eq _ _ _ hpy, node_lookup_not_prefix_eq _ _ _ hpy]
        exact ihr k hrest y


/-! ## The trie: `put` and `delete` at the root -/

theorem trie_lookup_put (t : Trie) (k v : List Byte) (ht : t.Canonical) (y : List Byte) :
    (t.put k v).lookup y = if y = k then some v else t.lookup y := by
  cases hroot : t.root with
  | none =>
    simp only [Trie.put, Trie.lookup, hroot]
    by_cases hp : k <+: y
    · by_cases he : y = k
      · simp [Node.lookup, he]
      · simp [Node.lookup, hp, he, lookupF_nil]
    · have he : y ≠ k := fun h => hp (by rw [h])
      simp [Node.lookup, hp, he]
  | some n =>
    have hn : n.Canonical := by
      have := ht
      simp only [Trie.Canonical, hroot] at this
      exact this
    simp only [Trie.put, Trie.lookup, hroot]
    exact node_lookup_putAt (fun kr => insertF n.children kr v) n.pathSegment n.value
      n.children k v (fun _ => none)
      (fun x hx z => lookupF_insertF n.children x v hn.2 hx z) (fun _ _ => rfl) y

theorem trie_canonical_put (t : Trie) (k v : List Byte) (ht : t.Canonical) :
    (t.put k v).Canonical := by
  cases hroot : t.root with
  | none =>
    simp only [Trie.put, Trie.Canonical, hroot]
    exact And.intro (by simp) trivial
  | some n =>
    have hn : n.Canonical := by
      have := ht
      simp only [Trie.Canonical, hroot] at this
      exact this
    simp only [Trie.put, Trie.Canonical, hroot]
    exact canonical_putAt (fun kr => insertF n.children kr v) n.pathSegment n.value
      n.children k v hn
      (fun x hx => And.intro (canonical_insertF n.children x v hn.2 hx).1
        (canonical_insertF n.children x v hn.2 hx).2.1)

theorem trie_lookup_root (o : Option Node) (y : List Byte) :
    Trie.lookup { root := o } y = lookupOpt o (fun _ => none) y := by
  cases o <;> rfl

theorem trie_lookup_del (t : Trie) (k : List Byte) (ht : t.Canonical) (y : List Byte) :
    (t.del k).lookup y = if y = k then none else t.lookup y := by
  cases hroot : t.root with
  | none =>
    simp [Trie.del, Trie.lookup, hroot]
  | some n =>
    have hn : n.Canonical := by
      have := ht
      simp only [Trie.Canonical, hroot] at this
      exact this
    simp only [Trie.del, hroot]
    by_cases hp : n.pathSegment <+: k
    · rw [if_pos hp]
      by_cases he : k = n.pathSegment
      · rw [if_pos he, trie_lookup_root,
          lookupOpt_collapse _ none n.children _ hn.2 (fun _ _ => rfl)]
        simp only [Trie.lookup, hroot]
        by_cases hy : y = k
        · rw [if_pos hy, hy, he]
          exact node_lookup_self _ _
        · rw [if_neg hy]
          have hy2 : y ≠ n.pathSegment := fun h => hy (h.trans he.symm)
          simp [Node.lookup, hy2]
      · rw [if_neg he, trie_lookup_root,
          lookupOpt_collapse _ n.value _ _ (canonical_eraseF n.children _ hn.2).1
            (fun _ _ => rfl)]
        simp only [Trie.lookup, hroot]
        obtain ⟨x, rfl⟩ := hp
        have hx : x ≠ [] := fun h => he (by simp [h])
        simp only [List.drop_left']
        by_cases hpy : n.pathSegment <+: y
        · obtain ⟨z, rfl⟩ := hpy
          by_cases hz : z = []
          · subst hz
            have : n.pathSegment ≠ n.pathSegment ++ x := fun h => hx (by simpa using h.symm)
            simp [Node.lookup, this]
          · simp [Node.lookup, hz, lookupF_eraseF n.children x hn.2 z]
        · have hne : y ≠ n.pathSegment ++ x := fun h =>
            hpy (by rw [h]; exact List.prefix_append _ x)
          simp [Node.lookup, hpy, hne]
    · rw [if_neg hp]
      simp only [Trie.lookup, hroot]
      by_cases hy : y = k
      · rw [if_pos hy, hy, node_lookup_not_prefix_eq _ _ _ hp]
      · rw [if_neg hy]

theorem trie_canonical_del (t : Trie) (k : List Byte) (ht : t.Canonical) :
    (t.del k).Canonical := by
  cases hroot : t.root with
  | none =>
    simp only [Trie.del, hroot]
    exact ht
  | some n =>
    have hn : n.Canonical := by
      have := ht
      simp only [Trie.Canonical, hroot] at this
      exact this
    have hnode : ∀ (w : Option (List Byte)) (kids2 : Children), merkledb.Canonical kids2 →
        Trie.Canonical { root := collapse n.pathSegment w kids2 } := by
      intro w kids2 hk2
      cases hco : collapse n.pathSegment w kids2 with
      | none => trivial
      | some m => exact (canonical_collapse _ w kids2 hk2 m hco).1
    simp only [Trie.del, hroot]
    by_cases hp : n.pathSegment <+: k
    · rw [if_pos hp]
      by_cases he : k = n.pathSegment
      · rw [if_pos he]
        exact hnode none _ hn.2
      · rw [if_neg he]
        exact hnode _ _ (canonical_eraseF n.children _ hn.2).1
    · rw [if_neg hp]
      exact ht


/-! ## The trie: the canonical shape is determined by the stored keys -/

/-- A node of canonical shape stores a key at or below itself. -/
theorem node_has_key (kids : Children) :
    ∀ (s : List Byte) (val : Option (List Byte)), (val = none → 2 ≤ kids.length) →
      Canonical kids → ∀ fb : List Byte → Option (List Byte),
        ∃ z v, Node.lookup { pathSegment := s, value := val, children := kids } fb (s ++ z) =
          some v := by
  induction kids with
  | nil =>
    intro s val hval _ fb
    cases val with
    | none =>
      have := hval rfl
      simp [Children.length] at this
    | some w => exact ⟨[], w, by simp [Node.lookup]⟩
  | cons s2 v2 k2 r2 ih2 _ =>
    intro s val hval hc fb
    cases val with
    | some w => exact ⟨[], w, by simp [Node.lookup]⟩
    | none =>
      obtain ⟨hs2, hv2, hk2, _, _⟩ := hc
      obtain ⟨z, v, hz⟩ := ih2 s2 v2 hv2 hk2 (lookupF r2)
      refine ⟨s2 ++ z, v, ?_⟩
      have hne : s2 ++ z ≠ [] := by simp [hs2]
      have h := node_lookup_below
        { pathSegment := s, value := none, children := Children.cons s2 v2 k2 r2 } fb
        (s2 ++ z) hne
      simp only at h
      rw [h, lookupF_cons]
      exact hz

/-- A non-empty list of nodes of canonical shape stores a key that starts
with the path segment of its first node. -/
theorem forest_has_key (s : List Byte) (val : Option (List Byte)) (kids rest : Children)
    (hc : Canonical (Children.cons s val kids rest)) :
    ∃ z v, lookupF (Children.cons s val kids rest) (s ++ z) = some v := by
  obtain ⟨_, hval, hkids, _, _⟩ := hc
  obtain ⟨z, v, h⟩ := node_has_key kids s val hval hkids (lookupF rest)
  exact ⟨z, v, by rw [lookupF_cons]; exact h⟩

/-- A common prefix of all the keys stored at or below a node of canonical
shape is a prefix of its path segment. -/
theorem prefix_of_keys (n : Node) (hn : n.Canonical) (fb : List Byte → Option (List Byte))
    (p : List Byte) (hp : ∀ z v, n.lookup fb (n.pathSegment ++ z) = some v →
      p <+: n.pathSegment ++ z) :
    p <+: n.pathSegment := by
  obtain ⟨s, val, kids⟩ := n
  obtain ⟨hval, hkids⟩ := hn
  simp only at hval hkids hp ⊢
  cases val with
  | some w =>
    have := hp [] w (by simp [Node.lookup])
    simpa using this
  | none =>
    have hlen := hval rfl
    cases kids with
    | nil => simp [Children.length] at hlen
    | cons s2 v2 k2 r2 =>
      cases r2 with
      | nil => simp [Children.length] at hlen
      | cons s3 v3 k3 r3 =>
        obtain ⟨hs2, hv2, hk2, hr2, hlt2⟩ := hkids
        have hs3 : s3 ≠ [] := hr2.1
        simp only [HeadLt] at hlt2
        obtain ⟨z2, w2, h2⟩ := forest_has_key s2 v2 k2 _
          (canonical_cons s2 v2 k2 _ hs2 hv2 hk2 hr2 hlt2)
        obtain ⟨z3, w3, h3⟩ := forest_has_key s3 v3 k3 r3 hr2
        have hne2 : s2 ++ z2 ≠ [] := by simp [hs2]
        have hne3 : s3 ++ z3 ≠ [] := by simp [hs3]
        have hnp : ¬ s2 <+: s3 ++ z3 := fun h => by
          have e1 := firstUnit_prefix_eq s2 _ hs2 h
          have e2 := firstUnit_append s3 z3 hs3
          omega
        have key2 : Node.lookup
            { pathSegment := s, value := none,
              children := Children.cons s2 v2 k2 (Children.cons s3 v3 k3 r3) } fb
            (s ++ (s2 ++ z2)) = some w2 := by
          have h := node_lookup_below
            { pathSegment := s, value := none,
              children := Children.cons s2 v2 k2 (Children.cons s3 v3 k3 r3) } fb
            (s2 ++ z2) hne2
          simp only at h
          rw [h]
          exact h2
        have key3 : Node.lookup
            { pathSegment := s, value := none,
              children := Children.cons s2 v2 k2 (Children.cons s3 v3 k3 r3) } fb
            (s ++ (s3 ++ z3)) = some w3 := by
          have h := node_lookup_below
            { pathSegment := s, value := none,
              children := Children.cons s2 v2 k2 (Children.cons s3 v3 k3 r3) } fb
            (s3 ++ z3) hne3
          simp only at h
          rw [h, lookupF_cons, node_lookup_not_prefix_eq _ _ _ hnp]
          exact h3
        have p2 := hp _ w2 key2
        have p3 := hp _ w3 key3
        rcases List.prefix_or_prefix_of_prefix p2 (List.prefix_append s (s2 ++ z2)) with h | h
        · exact h
        · obtain ⟨q, rfl⟩ := h
          by_cases hq : q = []
          · subst hq
            simp
          · exfalso
            rw [List.prefix_append_right_inj] at p2 p3
            have e2 := firstUnit_prefix_eq q _ hq p2
            have e3 := firstUnit_prefix_eq q _ hq p3
            have f2 := firstUnit_append s2 z2 hs2
            have f3 := firstUnit_append s3 z3 hs3
            omega

theorem prefix_antisymm (a b : List Byte) (h1 : a <+: b) (h2 : b <+: a) : a = b := by
  obtain ⟨x, hx⟩ := h1
  have hl := h2.length_le
  rw [← hx] at hl
  simp only [List.length_append] at hl
  have : x = [] := List.eq_nil_of_length_eq_zero (by omega)
  rw [← hx, this, List.append_nil]

/-- Two nodes of canonical shape that store the same keys are equal, when
this holds of their children. -/
theorem node_ext (n1 n2 : Node) (h1 : n1.Canonical) (h2 : n2.Canonical)
    (hkids : ∀ f2, Canonical f2 → (∀ y, lookupF n1.children y = lookupF f2 y) →
      n1.children = f2)
    (h : ∀ y, n1.lookup (fun _ => none) y = n2.lookup (fun _ => none) y) : n1 = n2 := by
  have hseg12 : n2.pathSegment <+: n1.pathSegment := by
    apply prefix_of_keys n1 h1 (fun _ => none)
    intro z v hz
    rw [h] at hz
    by_contra hnp
    rw [node_lookup_not_prefix_eq _ _ _ hnp] at hz
    cases hz
  have hseg21 : n1.pathSegment <+: n2.pathSegment := by
    apply prefix_of_keys n2 h2 (fun _ => none)
    intro z v hz
    rw [← h] at hz
    by_contra hnp
    rw [node_lookup_not_prefix_eq _ _ _ hnp] at hz
    cases hz
  have hseg : n1.pathSegment = n2.pathSegment := prefix_antisymm _ _ hseg21 hseg12
  have hval : n1.value = n2.value := by
    have := h n1.pathSegment
    rw [node_lookup_self] at this
    rw [this, hseg, node_lookup_self]
  have hch : n1.children = n2.children := by
    apply hkids n2.children h2.2
    intro y
    by_cases hy : y = []
    · rw [hy, lookupF_empty_key _ h1.2, lookupF_empty_key _ h2.2]
    · have := h (n1.pathSegment ++ y)
      rw [node_lookup_below _ _ y hy] at this
      rw [this, hseg, node_lookup_below _ _ y hy]
  obtain ⟨s1, v1, k1⟩ := n1
  obtain ⟨s2, v2, k2⟩ := n2
  simp only at hseg hval hch
  rw [hseg, hval, hch]

/-- Two lists of nodes of canonical shape that store the same keys are
equal. -/
theorem forest_ext (f1 : Children) :
    ∀ f2, Canonical f1 → Canonical f2 → (∀ y, lookupF f1 y = lookupF f2 y) → f1 = f2 := by
  induction f1 with
  | nil =>
    intro f2 _ hc2 h
    cases f2 with
    | nil => rfl
    | cons s2 v2 k2 r2 =>
      obtain ⟨z, v, hz⟩ := forest_has_key s2 v2 k2 r2 hc2
      rw [← h, lookupF_nil] at hz
      cases hz
  | cons s1 v1 k1 r1 ihk ihr =>
    intro f2 hc1 hc2 h
    cases f2 with
    | nil =>
      obtain ⟨z, v, hz⟩ := forest_has_key s1 v1 k1 r1 hc1
      rw [h, lookupF_nil] at hz
      cases hz
    | cons s2 v2 k2 r2 =>
      have hc1' := hc1
      have hc2' := hc2
      obtain ⟨hs1, hv1, hk1, hr1, hlt1⟩ := hc1
      obtain ⟨hs2, hv2, hk2, hr2, hlt2⟩ := hc2
      have hunit : firstUnit s1 = firstUnit s2 := by
        rcases Nat.lt_trichotomy (firstUnit s1) (firstUnit s2) with hlt | heq | hgt
        · exfalso
          obtain ⟨z, v, hz⟩ := forest_has_key s1 v1 k1 r1 hc1'
          rw [h, lookupF_of_headLt _ _ hc2' (by
            simp only [HeadLt]
            rw [firstUnit_append s1 z hs1]
            exact hlt)] at hz
          cases hz
        · exact heq
        · exfalso
          obtain ⟨z, v, hz⟩ := forest_has_key s2 v2 k2 r2 hc2'
          rw [← h, lookupF_of_headLt _ _ hc1' (by
            simp only [HeadLt]
            rw [firstUnit_append s2 z hs2]
            exact hgt)] at hz
          cases hz
      have hnode : ∀ y,
          Node.lookup { pathSegment := s1, value := v1, children := k1 } (fun _ => none) y =
          Node.lookup { pathSegment := s2, value := v2, children := k2 } (fun _ => none) y := by
        intro y
        have hy := h y
        rw [lookupF_cons, lookupF_cons] at hy
        by_cases hp1 : s1 <+: y
        · have e1 : Node.lookup { pathSegment := s1, value := v1, children := k1 }
              (fun _ => none) y =
              Node.lookup { pathSegment := s1, value := v1, children := k1 } (lookupF r1) y :=
            node_lookup_congr _ _ _ _ (fun hn => absurd hp1 hn)
          rw [e1, hy]
          apply node_lookup_congr
          intro _
          exact lookupF_rest_of_unit s2 r2 y hr2 hlt2
            ((firstUnit_prefix_eq s1 y hs1 hp1).trans hunit)
        · rw [node_lookup_not_prefix_eq _ _ _ hp1]
          by_cases hp2 : s2 <+: y
          · have e2 : Node.lookup { pathSegment := s2, value := v2, children := k2 }
                (fun _ => none) y =
                Node.lookup { pathSegment := s2, value := v2, children := k2 } (lookupF r2) y :=
              node_lookup_congr _ _ _ _ (fun hn => absurd hp2 hn)
            rw [e2, ← hy, node_lookup_not_prefix_eq _ _ _ hp1]
            exact (lookupF_rest_of_unit s1 r1 y hr1 hlt1
              ((firstUnit_prefix_eq s2 y hs2 hp2).trans hunit.symm)).symm
          · rw [node_lookup_not_prefix_eq _ _ _ hp2]
      have hn := node_ext { pathSegment := s1, value := v1, children := k1 }
        { pathSegment := s2, value := v2, children := k2 } (And.intro hv1 hk1)
        (And.intro hv2 hk2) (fun f hf hl => ihk f hk1 hf hl) hnode
      have hseg : s1 = s2 := congrArg Node.pathSegment hn
      have hval : v1 = v2 := congrArg Node.value hn
      have hch : k1 = k2 := congrArg Node.children hn
      have hrest : r1 = r2 := by
        apply ihr r2 hr1 hr2
        intro y
        by_cases hu : firstUnit y = firstUnit s1
        · rw [lookupF_rest_of_unit s1 r1 y hr1 hlt1 hu,
            lookupF_rest_of_unit s2 r2 y hr2 hlt2 (hu.trans hunit)]
        · have hp1 : ¬ s1 <+: y := fun hp => hu (firstUnit_prefix_eq s1 y hs1 hp)
          have hp2 : ¬ s2 <+: y := fun hp =>
            hu ((firstUnit_prefix_eq s2 y hs2 hp).trans hunit.symm)
          have hy := h y
          rw [lookupF_cons, lookupF_cons, node_lookup_not_prefix_eq _ _ _ hp1,
            node_lookup_not_prefix_eq _ _ _ hp2] at hy
          exact hy
      rw [hseg, hval, hch, hrest]

/-- Two tries of canonical shape that store the same keys are equal. -/
theorem trie_ext_of_lookup (t1 t2 : Trie) (h1 : t1.Canonical) (h2 : t2.Canonical)
    (h : ∀ y, t1.lookup y = t2.lookup y) : t1 = t2 := by
  obtain ⟨r1⟩ := t1
  obtain ⟨r2⟩ := t2
  cases r1 with
  | none =>
    cases r2 with
    | none => rfl
    | some n2 =>
      exfalso
      have hn2 : n2.Canonical := h2
      obtain ⟨z, v, hz⟩ := node_has_key n2.children n2.pathSegment n2.value hn2.1 hn2.2
        (fun _ => none)
      have := h (n2.pathSegment ++ z)
      simp only [Trie.lookup] at this
      rw [hz] at this
      cases this
  | some n1 =>
    cases r2 with
    | none =>
      exfalso
      have hn1 : n1.Canonical := h1
      obtain ⟨z, v, hz⟩ := node_has_key n1.children n1.pathSegment n1.value hn1.1 hn1.2
        (fun _ => none)
      have := h (n1.pathSegment ++ z)
      simp only [Trie.lookup] at this
      rw [hz] at this
      cases this
    | some n2 =>
      have hn1 : n1.Canonical := h1
      have hn2 : n2.Canonical := h2
      have := node_ext n1 n2 hn1 hn2
        (fun f hf hl => forest_ext n1.children f hn1.2 hf hl) (fun y => h y)
      rw [this]

end merkledb


namespace merkledb

/-! ## C15 -/

theorem trie_canonical_empty : Trie.empty.Canonical := trivial

/-- The trie after a run of mutations has the canonical shape and stores the
key-value set the mutations leave. -/
theorem trie_run_invariant :
    ∀ (ms : List Mutation) (t : Trie) (m : List Byte → Option (List Byte)),
      t.Canonical → (∀ y, t.lookup y = m y) →
      (Mutation.directAll trieTree t ms).Canonical ∧
      ∀ y, (Mutation.directAll trieTree t ms).lookup y = ms.foldl Mutation.kv m y
  | [], t, m, ht, hl => And.intro ht hl
  | mu :: ms, t, m, ht, hl => by
    cases mu with
    | Put key value =>
      exact trie_run_invariant ms (t.put (key.getD []) (value.getD [])) _
        (trie_canonical_put t _ _ ht)
        (fun y => by
          rw [trie_lookup_put t _ _ ht y]
          simp only [Mutation.kv, hl y])
    | Delete key =>
      exact trie_run_invariant ms (t.del (key.getD [])) _
        (trie_canonical_del t _ ht)
        (fun y => by
          rw [trie_lookup_del t _ ht y]
          simp only [Mutation.kv, hl y])

theorem trieTree_directOk :
    ∀ (ms : List Mutation) (t : Trie), Mutation.directOk trieTree t ms = true
  | [], _ => rfl
  | mu :: ms, t => by
    have h1 : (mu.direct trieTree t).2 = none := by cases mu <;> rfl
    simp only [Mutation.directOk, h1, Option.isNone_none, Bool.true_and]
    exact trieTree_directOk ms _

/-- The state a `Write` leaves after `Put`/`Delete` calls on a fresh batch,
when none of the operations fails: `Commit` of the left fold. -/
theorem sys_run_mutations_write {σ ε ω : Type} (t : Tree σ ε) (w : World σ) (k : Sink ω)
    (ms : List Mutation) (hok : Mutation.directOk t w.state ms = true) :
    ((Sys.fresh t w k).run (ms.map Mutation.op ++ [Op.Write])).world.state =
      (t.persistence.Commit (Mutation.directAll t w.state ms)).1 := by
  have hall : t.allOk w.state (ms.map Mutation.entry) = true := by
    rw [mutation_allOk_entries]; exact hok
  have hW := Write_of_allOk { data := ms.map Mutation.entry, tree := t } w hall
  rw [sys_run_append, sys_run_mutations]
  simp only [Sys.run, List.foldl_cons, List.foldl_nil, Sys.step, Sys.fresh, NewBatch,
    List.nil_append]
  rw [hW]
  simp [mutation_applyAll_entries]

/-- C15: determinism of the root hash. Two sequences of `Put`/`Delete`
operations that leave the same final key-value set leave the same trie, hence
the same root hash for every digest function, whether the operations are
applied directly or buffered in a batch and written; the keys and values the
trie stores are the final key-value set. -/
theorem root_hash_deterministic {D ω : Type}
    (digest : Option (List Byte) → List (Byte × D) → D) (emptyRoot : D)
    (ms1 ms2 : List Mutation) (k : Sink ω)
    (h : ∀ y, Mutation.kvAll ms1 y = Mutation.kvAll ms2 y) :
    rootHash digest emptyRoot (Mutation.directAll trieTree Trie.empty ms1) =
      rootHash digest emptyRoot (Mutation.directAll trieTree Trie.empty ms2) ∧
    rootHash digest emptyRoot
        ((Sys.fresh trieTree emptyTrieWorld k).run
          (ms1.map Mutation.op ++ [Op.Write])).world.state =
      rootHash digest emptyRoot (Mutation.directAll trieTree Trie.empty ms2) ∧
    (∀ y, (Mutation.directAll trieTree Trie.empty ms1).lookup y = Mutation.kvAll ms1 y) := by
  obtain ⟨hc1, hl1⟩ := trie_run_invariant ms1 Trie.empty (fun _ => none)
    trie_canonical_empty (fun _ => rfl)
  obtain ⟨hc2, hl2⟩ := trie_run_invariant ms2 Trie.empty (fun _ => none)
    trie_canonical_empty (fun _ => rfl)
  have heq : Mutation.directAll trieTree Trie.empty ms1 =
      Mutation.directAll trieTree Trie.empty ms2 :=
    trie_ext_of_lookup _ _ hc1 hc2 (fun y => by
      rw [hl1 y, hl2 y]
      exact h y)
  have hw := sys_run_mutations_write trieTree emptyTrieWorld k ms1
    (trieTree_directOk ms1 _)
  refine And.intro (by rw [heq]) (And.intro ?_ hl1)
  rw [hw]
  show rootHash digest emptyRoot (Mutation.directAll trieTree Trie.empty ms1) = _
  rw [heq]

theorem root_hash_deterministic_witness :
    (∀ y, Mutation.kvAll abMutations y = Mutation.kvAll bMutations y) ∧
    (rootHash sampleDigest 0 (Mutation.directAll trieTree Trie.empty abMutations) =
      rootHash sampleDigest 0 (Mutation.directAll trieTree Trie.empty bMutations) ∧
    rootHash sampleDigest 0
        ((Sys.fresh trieTree emptyTrieWorld unitSink).run
          (abMutations.map Mutation.op ++ [Op.Write])).world.state =
      rootHash sampleDigest 0 (Mutation.directAll trieTree Trie.empty bMutations) ∧
    (∀ y, (Mutation.directAll trieTree Trie.empty abMutations).lookup y =
      Mutation.kvAll abMutations y)) :=
  have hkv : ∀ y, Mutation.kvAll abMutations y = Mutation.kvAll bMutations y := by
    intro y
    simp only [Mutation.kvAll, abMutations, bMutations, List.foldl_cons, List.foldl_nil,
      Mutation.kv, Option.getD_some]
    by_cases h1 : y = [97]
    · subst h1
      simp
    · simp [h1]
  ⟨hkv, root_hash_deterministic sampleDigest 0 abMutations bMutations unitSink hkv⟩

end merkledb
